import Mathlib

/-!
Verification of the martinez Ethereum client against its specification.

Each section embeds one part of the Rust source as executable Lean
definitions (bytes are `List Nat`, machine integers are `Nat` with explicit
bounds) and proves or refutes the corresponding specification claims.
-/

set_option maxRecDepth 4096

namespace Martinez

/-- Byte strings: each element is a byte value (< 256 in well-formed data). -/
abbrev Bytes := List Nat

/-- Big-endian byte encoding of `n` on `k` bytes (mirrors `u64::to_be_bytes`
for `k = 8`). -/
def natToBe : Nat → Nat → Bytes
  | 0, _ => []
  | k + 1, n => natToBe k (n / 256) ++ [n % 256]

/-- Big-endian byte decoding (mirrors `u64::from_be_bytes`). -/
def beToNat (b : Bytes) : Nat := b.foldl (fun a c => a * 256 + c) 0

theorem natToBe_length (k n : Nat) : (natToBe k n).length = k := by
  induction k generalizing n with
  | zero => rfl
  | succ k ih => simp [natToBe, ih]

theorem beToNat_append_one (xs : Bytes) (c : Nat) :
    beToNat (xs ++ [c]) = beToNat xs * 256 + c := by
  simp [beToNat, List.foldl_append]

theorem beToNat_natToBe (k n : Nat) (h : n < 256 ^ k) :
    beToNat (natToBe k n) = n := by
  induction k generalizing n with
  | zero =>
    interval_cases n
    rfl
  | succ k ih =>
    rw [natToBe, beToNat_append_one, ih (n / 256) (by
      have : n < 256 ^ k * 256 := by
        simpa [pow_succ] using h
      exact Nat.div_lt_of_lt_mul (by omega))]
    omega

/-! ## kv/tables.rs : table key codecs (claim C8)

Each `TableObject` implementation from `src/kv/tables.rs` is embedded as an
`encode`/`decode` pair.  Decode errors carry the offending length, mirroring
`InvalidLength { got }` / `InvalidLengthOneOf { got }`. -/

namespace Tables

/-- `u64_table_object!` decode (`BlockNumber`, `Incarnation`): exactly 8
big-endian bytes. -/
def u64Decode (b : Bytes) : Except Nat Nat :=
  if b.length = 8 then .ok (beToNat b) else .error b.length

/-- `u64_table_object!` encode. -/
def u64Encode (n : Nat) : Bytes := natToBe 8 n

/-- `TableObject for Address` decode: exactly 20 bytes, kept verbatim. -/
def addressDecode (b : Bytes) : Except Nat Bytes :=
  if b.length = 20 then .ok b else .error b.length

/-- `TableObject for Address` encode (the raw 20 bytes). -/
def addressEncode (b : Bytes) : Bytes := b

/-- `TableObject for H256` decode: exactly 32 bytes, kept verbatim. -/
def h256Decode (b : Bytes) : Except Nat Bytes :=
  if b.length = 32 then .ok b else .error b.length

/-- `TableObject for H256` encode (the raw 32 bytes). -/
def h256Encode (b : Bytes) : Bytes := b

/-- `TableObject for (A, B)` at `A = BlockNumber`, `B = H256` (the
`HeaderKey` used by header/body tables): reject unless the length is
exactly 8 + 32, then split. -/
def headerKeyDecode (b : Bytes) : Except Nat (Nat × Bytes) :=
  if b.length = 40 then .ok (beToNat (b.take 8), b.drop 8) else .error b.length

/-- `TableObject for (A, B)` encode at `A = BlockNumber`, `B = H256`. -/
def headerKeyEncode (n : Nat) (h : Bytes) : Bytes := natToBe 8 n ++ h

/-- `TableObject for (A, B, C)` at `(BlockNumber, Address, Incarnation)`
(the `StorageChangeSet` key): reject unless the length is exactly
8 + 20 + 8, then split. -/
def storageCsKeyDecode (b : Bytes) : Except Nat (Nat × Bytes × Nat) :=
  if b.length = 36 then
    .ok (beToNat (b.take 8), (b.drop 8).take 20, beToNat (b.drop 28))
  else .error b.length

/-- `TableObject for (A, B, C)` encode at `(BlockNumber, Address, Incarnation)`. -/
def storageCsKeyEncode (n : Nat) (a : Bytes) (inc : Nat) : Bytes :=
  natToBe 8 n ++ a ++ natToBe 8 inc

/-- `PlainStateKey`: either a bare 20-byte address (account row) or a
60-byte `Address || Incarnation || H256` composite (storage row). -/
inductive PlainStateKey where
  | account (addr : Bytes)
  | storage (addr : Bytes) (incarnation : Nat) (location : Bytes)
  deriving DecidableEq, Repr

/-- `TableObject for PlainStateKey` encode (`MultiLenKeyEncoded`). -/
def plainStateKeyEncode : PlainStateKey → Bytes
  | .account a => a
  | .storage a inc loc => a ++ natToBe 8 inc ++ loc

/-- `TableObject for PlainStateKey` decode: dispatch on the length, 20 bytes
to `Account`, 60 bytes to `Storage`, everything else is
`InvalidLengthOneOf`. -/
def plainStateKeyDecode (b : Bytes) : Except Nat PlainStateKey :=
  if b.length = 20 then .ok (.account b)
  else if b.length = 60 then
    .ok (.storage (b.take 20) (beToNat ((b.drop 20).take 8)) (b.drop 28))
  else .error b.length

/-- Well-formed `PlainStateKey` values: component lengths and bounds as in
the Rust types. -/
def PlainStateKey.wf : PlainStateKey → Prop
  | .account a => a.length = 20
  | .storage a inc loc => a.length = 20 ∧ inc < 2 ^ 64 ∧ loc.length = 32

instance : DecidablePred PlainStateKey.wf := by
  intro k
  cases k <;> simp [PlainStateKey.wf] <;> infer_instance

end Tables

section TablesProofs

open Tables

theorem take_append_of_length {a b : Bytes} {n : Nat} (h : a.length = n) :
    (a ++ b).take n = a := by
  subst h
  simp

theorem drop_append_of_length {a b : Bytes} {n : Nat} (h : a.length = n) :
    (a ++ b).drop n = b := by
  subst h
  simp

/-- C8: for every table key type in `kv/tables.rs` — `BlockNumber` /
`Incarnation` (8-byte big-endian), `Address` (20 bytes), `H256` (32 bytes),
the fixed-length pair `(BlockNumber, H256)` (`HeaderKey`), the fixed-length
triple `(BlockNumber, Address, Incarnation)` (`StorageChangeSet` key) and
`PlainStateKey` — `decode (encode k) = k` for every well-formed `k`, and
`decode` rejects every byte string whose length is not a valid encoded
length for that type. -/
theorem c8_table_codecs :
    (∀ n : Nat, n < 2 ^ 64 → u64Decode (u64Encode n) = .ok n) ∧
    (∀ b : Bytes, b.length ≠ 8 → u64Decode b = .error b.length) ∧
    (∀ a : Bytes, a.length = 20 → addressDecode (addressEncode a) = .ok a) ∧
    (∀ b : Bytes, b.length ≠ 20 → addressDecode b = .error b.length) ∧
    (∀ h : Bytes, h.length = 32 → h256Decode (h256Encode h) = .ok h) ∧
    (∀ b : Bytes, b.length ≠ 32 → h256Decode b = .error b.length) ∧
    (∀ (n : Nat) (h : Bytes), n < 2 ^ 64 → h.length = 32 →
      headerKeyDecode (headerKeyEncode n h) = .ok (n, h)) ∧
    (∀ b : Bytes, b.length ≠ 40 → headerKeyDecode b = .error b.length) ∧
    (∀ (n : Nat) (a : Bytes) (inc : Nat), n < 2 ^ 64 → a.length = 20 →
      inc < 2 ^ 64 →
      storageCsKeyDecode (storageCsKeyEncode n a inc) = .ok (n, a, inc)) ∧
    (∀ b : Bytes, b.length ≠ 36 → storageCsKeyDecode b = .error b.length) ∧
    (∀ k : PlainStateKey, k.wf →
      plainStateKeyDecode (plainStateKeyEncode k) = .ok k) ∧
    (∀ b : Bytes, b.length ≠ 20 → b.length ≠ 60 →
      plainStateKeyDecode b = .error b.length) := by
  have h64 : (2 : Nat) ^ 64 = 256 ^ 8 := by norm_num
  refine ⟨?_, ?_, ?_, ?_, ?_, ?_, ?_, ?_, ?_, ?_, ?_, ?_⟩
  · intro n hn
    simp [u64Decode, u64Encode, natToBe_length, beToNat_natToBe 8 n (h64 ▸ hn)]
  · intro b hb
    simp [u64Decode, hb]
  · intro a ha
    simp [addressDecode, addressEncode, ha]
  · intro b hb
    simp [addressDecode, hb]
  · intro h hh
    simp [h256Decode, h256Encode, hh]
  · intro b hb
    simp [h256Decode, hb]
  · intro n h hn hh
    have hlen : (natToBe 8 n).length = 8 := natToBe_length 8 n
    simp [headerKeyDecode, headerKeyEncode, hlen, hh,
      take_append_of_length hlen, drop_append_of_length hlen,
      beToNat_natToBe 8 n (h64 ▸ hn)]
  · intro b hb
    simp [headerKeyDecode, hb]
  · intro n a inc hn ha hinc
    have hlen : (natToBe 8 n).length = 8 := natToBe_length 8 n
    have hlen2 : (natToBe 8 n ++ a).length = 28 := by
      simp [hlen, ha]
    simp only [storageCsKeyDecode, storageCsKeyEncode]
    rw [if_pos (by simp [hlen, ha, natToBe_length])]
    rw [drop_append_of_length (n := 28) hlen2, List.append_assoc]
    rw [take_append_of_length (n := 8) hlen, drop_append_of_length (n := 8) hlen]
    rw [take_append_of_length (n := 20) ha]
    simp [beToNat_natToBe 8 n (h64 ▸ hn), beToNat_natToBe 8 inc (h64 ▸ hinc)]
  · intro b hb
    simp [storageCsKeyDecode, hb]
  · intro k hk
    cases k with
    | account a =>
      simp [plainStateKeyDecode, plainStateKeyEncode, PlainStateKey.wf.eq_def] at hk ⊢
      simp [hk]
    | storage a inc loc =>
      obtain ⟨ha, hinc, hloc⟩ := hk
      have hlen : (a ++ (natToBe 8 inc ++ loc)).length = 60 := by
        simp [ha, hloc, natToBe_length]
      simp only [plainStateKeyDecode, plainStateKeyEncode, List.append_assoc]
      rw [if_neg (by omega), if_pos hlen]
      rw [take_append_of_length (n := 20) ha, drop_append_of_length (n := 20) ha]
      rw [take_append_of_length (natToBe_length 8 inc)]
      rw [← List.append_assoc,
        drop_append_of_length (by simp [ha, natToBe_length] :
          (a ++ natToBe 8 inc).length = 28)]
      simp [beToNat_natToBe 8 inc (h64 ▸ hinc)]
  · intro b hb1 hb2
    simp [plainStateKeyDecode, hb1, hb2]

/-- Witness for C8 at concrete inputs. -/
theorem c8_table_codecs_witness :
    u64Decode (u64Encode 300) = .ok 300 ∧
    u64Decode [1, 2, 3] = .error 3 ∧
    plainStateKeyDecode
      (plainStateKeyEncode (.storage (List.replicate 20 7) 5 (List.replicate 32 9))) =
      .ok (.storage (List.replicate 20 7) 5 (List.replicate 32 9)) := by
  refine ⟨c8_table_codecs.1 300 (by norm_num), c8_table_codecs.2.1 [1, 2, 3] (by decide), ?_⟩
  exact c8_table_codecs.2.2.2.2.2.2.2.2.2.2.1
    (.storage (List.replicate 20 7) 5 (List.replicate 32 9)) (by decide)

end TablesProofs

/-! ## trie/node.rs : branch-node marshalling (claim C7) -/

namespace Trie

/-- `FixedBitSet::with_capacity_and_blocks(16, [mask]).count_ones(..)`:
number of set bits among the low 16 bits. -/
def popcount16 (m : Nat) : Nat :=
  ((List.range 16).filter (fun i => m.testBit i)).length

/-- The `for _ in 0..num_hashes` chunking loop of `Node::deserialize`:
take `k` chunks of 32 bytes. -/
def chunksOf32 : Nat → Bytes → List Bytes
  | 0, _ => []
  | k + 1, b => b.take 32 :: chunksOf32 k (b.drop 32)

/-- `trie::node::Node`: masks are `u16`, hashes and the optional root hash
are 32-byte strings. -/
structure Node where
  state_mask : Nat
  tree_mask : Nat
  hash_mask : Nat
  hashes : List Bytes
  root_hash : Option Bytes
  deriving DecidableEq, Repr

/-- Well-formedness matching the Rust types: `u16` masks, 32-byte hashes. -/
def Node.wf (n : Node) : Prop :=
  n.state_mask < 2 ^ 16 ∧ n.tree_mask < 2 ^ 16 ∧ n.hash_mask < 2 ^ 16 ∧
    (∀ h ∈ n.hashes, h.length = 32) ∧ (∀ h ∈ n.root_hash, h.length = 32)

/-- `Node::serialize`: the three masks as 2-byte big-endian, then the
optional root hash, then the child hashes. -/
def Node.serialize (n : Node) : Bytes :=
  natToBe 2 n.state_mask ++ natToBe 2 n.tree_mask ++ natToBe 2 n.hash_mask ++
    (match n.root_hash with
     | some h => h
     | none => []) ++ n.hashes.flatten

/-- `Node::deserialize`: reject lengths below 6 and lengths not ≡ 6 mod 32;
read the masks; read a root hash iff `popcount(hash_mask) + 1` equals the
number of remaining 32-byte words; the rest are child hashes. -/
def Node.deserialize (b : Bytes) : Option Node :=
  if b.length < 6 then none
  else if (b.length - 6) % 32 ≠ 0 then none
  else
    let state_mask := beToNat (b.take 2)
    let tree_mask := beToNat ((b.drop 2).take 2)
    let hash_mask := beToNat ((b.drop 4).take 2)
    let rest := b.drop 6
    if popcount16 hash_mask + 1 = rest.length / 32 then
      some ⟨state_mask, tree_mask, hash_mask,
        chunksOf32 ((rest.drop 32).length / 32) (rest.drop 32),
        some (rest.take 32)⟩
    else
      some ⟨state_mask, tree_mask, hash_mask, chunksOf32 (rest.length / 32) rest,
        none⟩

theorem chunksOf32_flatten (l : List Bytes) (h : ∀ x ∈ l, x.length = 32) :
    chunksOf32 l.length l.flatten = l := by
  induction l with
  | nil => rfl
  | cons x t ih =>
    have hx : x.length = 32 := h x (by simp)
    simp only [List.length_cons, List.flatten_cons, chunksOf32]
    rw [take_append_of_length hx, drop_append_of_length hx,
      ih (fun y hy => h y (by simp [hy]))]

theorem flatten_length_32 (l : List Bytes) (h : ∀ x ∈ l, x.length = 32) :
    l.flatten.length = 32 * l.length := by
  induction l with
  | nil => simp
  | cons x t ih =>
    have hx : x.length = 32 := h x (by simp)
    simp only [List.flatten_cons, List.length_append, List.length_cons, hx,
      ih (fun y hy => h y (by simp [hy]))]
    ring

theorem take_drop_chain5 (a b c d e : Bytes) (ha : a.length = 2)
    (hb : b.length = 2) (hc : c.length = 2) :
    (a ++ b ++ c ++ d ++ e).take 2 = a ∧
    ((a ++ b ++ c ++ d ++ e).drop 2).take 2 = b ∧
    ((a ++ b ++ c ++ d ++ e).drop 4).take 2 = c ∧
    (a ++ b ++ c ++ d ++ e).drop 6 = d ++ e := by
  obtain ⟨x0, x1, rfl⟩ := List.length_eq_two.mp ha
  obtain ⟨y0, y1, rfl⟩ := List.length_eq_two.mp hb
  obtain ⟨z0, z1, rfl⟩ := List.length_eq_two.mp hc
  simp

end Trie

section TrieProofs

open Trie

/-- C7: `Node::deserialize` accepts exactly the byte strings of length ≥ 6
with `(len − 6)` a multiple of 32; on acceptance the optional root hash is
read iff `popcount(hash_mask) + 1 = (len − 6) / 32`; and for every node
whose hashes vector has `popcount(hash_mask)` entries,
`deserialize (serialize n) = n`. -/
theorem c7_node_marshalling :
    (∀ b : Bytes, (Node.deserialize b).isSome ↔
      6 ≤ b.length ∧ (b.length - 6) % 32 = 0) ∧
    (∀ (b : Bytes) (n : Node), Node.deserialize b = some n →
      (n.root_hash.isSome ↔ popcount16 n.hash_mask + 1 = (b.length - 6) / 32)) ∧
    (∀ n : Node, n.wf → n.hashes.length = popcount16 n.hash_mask →
      Node.deserialize (Node.serialize n) = some n) := by
  refine ⟨?_, ?_, ?_⟩
  · intro b
    simp only [Node.deserialize]
    split
    · rename_i h1
      simp only [Option.isSome_none, Bool.false_eq_true, false_iff]
      omega
    · rename_i h1
      split
      · rename_i h2
        simp only [Option.isSome_none, Bool.false_eq_true, false_iff]
        omega
      · rename_i h2
        split <;>
          (simp only [Option.isSome_some, true_iff]
           omega)
  · intro b n h
    simp only [Node.deserialize] at h
    split at h
    · cases h
    split at h
    · cases h
    split at h <;> rename_i hroot <;> obtain ⟨⟩ := Option.some.inj h <;>
      simpa [List.length_drop] using hroot
  · intro n₀ hwf hcount
    obtain ⟨sm, tm, hm, hsh, rt⟩ := n₀
    obtain ⟨hs, ht, hh, hhashes, hroot⟩ := hwf
    replace hcount : hsh.length = popcount16 hm := hcount
    replace hs : sm < 2 ^ 16 := hs
    replace ht : tm < 2 ^ 16 := ht
    replace hh : hm < 2 ^ 16 := hh
    replace hhashes : ∀ x ∈ hsh, x.length = 32 := hhashes
    have h2 : (2 : Nat) ^ 16 = 256 ^ 2 := by norm_num
    have lsm : (natToBe 2 sm).length = 2 := natToBe_length _ _
    have ltm : (natToBe 2 tm).length = 2 := natToBe_length _ _
    have lhm : (natToBe 2 hm).length = 2 := natToBe_length _ _
    have lflat : hsh.flatten.length = 32 * hsh.length :=
      flatten_length_32 _ hhashes
    cases rt with
    | none =>
      obtain ⟨hc1, hc2, hc3, hc4⟩ :=
        take_drop_chain5 (natToBe 2 sm) (natToBe 2 tm) (natToBe 2 hm) []
          hsh.flatten lsm ltm lhm
      have hser : Node.serialize ⟨sm, tm, hm, hsh, none⟩ =
          natToBe 2 sm ++ natToBe 2 tm ++ natToBe 2 hm ++ [] ++ hsh.flatten := rfl
      have hlen : (Node.serialize ⟨sm, tm, hm, hsh, none⟩).length =
          6 + 32 * hsh.length := by
        rw [hser]
        simp [lsm, ltm, lhm, lflat]
        omega
      simp only [Node.deserialize, hlen]
      rw [if_neg (by omega), if_neg (by omega)]
      rw [hser, hc1, hc2, hc3, hc4]
      rw [beToNat_natToBe 2 sm (h2 ▸ hs), beToNat_natToBe 2 tm (h2 ▸ ht),
        beToNat_natToBe 2 hm (h2 ▸ hh)]
      have hne : ¬(popcount16 hm + 1 =
          (([] : Bytes) ++ hsh.flatten).length / 32) := by
        simp only [List.nil_append, lflat,
          Nat.mul_div_cancel_left _ (by norm_num : (0 : Nat) < 32), ← hcount]
        omega
      rw [if_neg hne]
      simp only [List.nil_append, lflat,
        Nat.mul_div_cancel_left _ (by norm_num : (0 : Nat) < 32)]
      rw [chunksOf32_flatten _ hhashes]
    | some root =>
      have hrlen : root.length = 32 := hroot root (by simp)
      obtain ⟨hc1, hc2, hc3, hc4⟩ :=
        take_drop_chain5 (natToBe 2 sm) (natToBe 2 tm) (natToBe 2 hm) root
          hsh.flatten lsm ltm lhm
      have hser : Node.serialize ⟨sm, tm, hm, hsh, some root⟩ =
          natToBe 2 sm ++ natToBe 2 tm ++ natToBe 2 hm ++ root ++ hsh.flatten := rfl
      have hlen : (Node.serialize ⟨sm, tm, hm, hsh, some root⟩).length =
          6 + 32 + 32 * hsh.length := by
        rw [hser]
        simp [lsm, ltm, lhm, lflat, hrlen]
        omega
      simp only [Node.deserialize, hlen]
      rw [if_neg (by omega), if_neg (by omega)]
      rw [hser, hc1, hc2, hc3, hc4]
      rw [beToNat_natToBe 2 sm (h2 ▸ hs), beToNat_natToBe 2 tm (h2 ▸ ht),
        beToNat_natToBe 2 hm (h2 ▸ hh)]
      have heq : popcount16 hm + 1 = (root ++ hsh.flatten).length / 32 := by
        simp only [List.length_append, hrlen, lflat, ← hcount]
        omega
      rw [if_pos heq]
      rw [take_append_of_length hrlen, drop_append_of_length hrlen]
      simp only [lflat, Nat.mul_div_cancel_left _ (by norm_num : (0 : Nat) < 32)]
      rw [chunksOf32_flatten _ hhashes]

/-- Witness for C7 at a concrete node and concrete byte strings. -/
theorem c7_node_marshalling_witness :
    ((Node.deserialize (List.replicate 38 0)).isSome ↔
      6 ≤ (List.replicate 38 0 : Bytes).length ∧
        ((List.replicate 38 0 : Bytes).length - 6) % 32 = 0) ∧
    Node.deserialize
        (Node.serialize ⟨3, 1, 2, [List.replicate 32 5], some (List.replicate 32 9)⟩) =
      some ⟨3, 1, 2, [List.replicate 32 5], some (List.replicate 32 9)⟩ := by
  constructor
  · exact c7_node_marshalling.1 (List.replicate 38 0)
  · exact c7_node_marshalling.2.2 ⟨3, 1, 2, [List.replicate 32 5], some (List.replicate 32 9)⟩
      (by refine ⟨by decide, by decide, by decide, ?_, ?_⟩
          · intro h hh
            simp only [List.mem_singleton] at hh
            simp [hh]
          · intro h hh
            simp only [Option.mem_def, Option.some.injEq] at hh
            simp [← hh])
      (by decide)

end TrieProofs

/-! ## execution/evm/interpreter.rs : bytecode analysis (claim C6) -/

namespace Evm

/-- Opcode constants (`execution/evm/opcode.rs`). -/
def JUMPDEST : Nat := 0x5b

def PUSH1 : Nat := 0x60

def PUSH32 : Nat := 0x7f

def STOP : Nat := 0x00

/-- Advance width of the opcode at the scan position in
`AnalyzedCode::analyze`: `JUMPDEST` and ordinary opcodes advance by 1,
`PUSHn` skips its `n` immediate bytes (`opcode - PUSH1 + 2`). -/
def opWidth (op : Nat) : Nat :=
  if op = JUMPDEST then 1
  else if PUSH1 ≤ op ∧ op ≤ PUSH32 then op - PUSH1 + 2
  else 1

/-- The `while i < code.len()` loop of `AnalyzedCode::analyze`: mark
`JUMPDEST` opcodes in the map and skip `PUSHn` immediates.  `fuel` bounds
the iteration count; `i` strictly increases, so `code.length` iterations
always suffice.  Returns the final map and the final scan position `i`. -/
def analyzeScan (code : Bytes) : Nat → Nat → List Bool → List Bool × Nat
  | 0, i, m => (m, i)
  | fuel + 1, i, m =>
    if i < code.length then
      let op := code.getD i 0
      if op = JUMPDEST then
        analyzeScan code fuel (i + 1) (m.set i true)
      else
        analyzeScan code fuel (i + opWidth op) m
    else (m, i)

/-- The instruction-start positions of `code`: the positions the analysis
scan visits, i.e. the positions that are not inside a `PUSHn` immediate. -/
def insnStarts (code : Bytes) : Nat → Nat → List Nat
  | 0, _ => []
  | fuel + 1, i =>
    if i < code.length then
      i :: insnStarts code fuel (i + opWidth (code.getD i 0))
    else []

/-- `AnalyzedCode` (analysis result). -/
structure AnalyzedCode where
  jumpdestMap : List Bool
  code : Bytes
  paddedCode : Bytes
  deriving DecidableEq, Repr

/-- `AnalyzedCode::analyze`: scan the code, then
`padded_code.resize(i + 1, STOP)` where `i` is the final scan position, and
truncate a copy back to the original length for the `code` field. -/
def analyze (code : Bytes) : AnalyzedCode :=
  let scanned := analyzeScan code code.length 0 (List.replicate code.length false)
  let fin := scanned.2
  let padded := code.take (fin + 1) ++ List.replicate (fin + 1 - code.length) STOP
  { jumpdestMap := scanned.1, code := padded.take code.length,
    paddedCode := padded }

/-- Final position of the analysis scan over `code`. -/
def scanEnd (code : Bytes) : Nat :=
  (analyzeScan code code.length 0 (List.replicate code.length false)).2

theorem analyzeScan_map_length (code : Bytes) (fuel : Nat) :
    ∀ i m, ((analyzeScan code fuel i m).1.length = m.length) := by
  induction fuel with
  | zero => intro i m; rfl
  | succ fuel ih =>
    intro i m
    simp only [analyzeScan]
    split
    · split
      · rw [ih]
        simp
      · rw [ih]
    · rfl

theorem opWidth_pos (op : Nat) : 1 ≤ opWidth op := by
  simp only [opWidth]
  split
  · omega
  · split <;> omega

theorem analyzeScan_end_ge (code : Bytes) (fuel : Nat) :
    ∀ i m, code.length ≤ i + fuel →
      code.length ≤ (analyzeScan code fuel i m).2 := by
  induction fuel with
  | zero =>
    intro i m h
    simpa [analyzeScan] using h
  | succ fuel ih =>
    intro i m h
    simp only [analyzeScan]
    split
    · split
      · exact ih _ _ (by omega)
      · exact ih _ _ (by have := opWidth_pos (code.getD i 0); omega)
    · show code.length ≤ i
      omega

theorem analyzeScan_spec (code : Bytes) (fuel : Nat) :
    ∀ i m, m.length = code.length → ∀ p : Nat,
      ((analyzeScan code fuel i m).1[p]? = some true ↔
        (m[p]? = some true ∨
          (p ∈ insnStarts code fuel i ∧ code.getD p 0 = JUMPDEST))) := by
  induction fuel with
  | zero =>
    intro i m hm p
    simp [analyzeScan, insnStarts]
  | succ fuel ih =>
    intro i m hm p
    simp only [analyzeScan, insnStarts, List.getD_eq_getElem?_getD] at *
    split
    · rename_i hi
      split
      · rename_i hop
        rw [ih (i + 1) (m.set i true) (by simp [hm])]
        have hw : i + opWidth (code[i]?.getD 0) = i + 1 := by
          rw [hop]
          simp [opWidth, JUMPDEST]
        rw [hw]
        have hset : (m.set i true)[p]? = some true ↔
            (m[p]? = some true ∨ p = i) := by
          by_cases hpi : p = i
          · subst hpi
            simp [List.getElem?_set_self, hm, hi]
          · rw [List.getElem?_set_ne (by omega)]
            simp [hpi]
        rw [hset]
        constructor
        · rintro (hm' | hi')
          · rcases hm' with hm' | rfl
            · exact Or.inl hm'
            · exact Or.inr ⟨by simp, hop⟩
          · exact Or.inr ⟨by simp [hi'.1], hi'.2⟩
        · rintro (hm' | ⟨hmem, hcode⟩)
          · exact Or.inl (Or.inl hm')
          · simp only [List.mem_cons] at hmem
            rcases hmem with rfl | hmem
            · exact Or.inl (Or.inr rfl)
            · exact Or.inr ⟨hmem, hcode⟩
      · rename_i hop
        rw [ih (i + opWidth (code[i]?.getD 0)) m hm]
        constructor
        · rintro (hm' | ⟨hmem, hcode⟩)
          · exact Or.inl hm'
          · exact Or.inr ⟨by simp [hmem], hcode⟩
        · rintro (hm' | ⟨hmem, hcode⟩)
          · exact Or.inl hm'
          · simp only [List.mem_cons] at hmem
            rcases hmem with rfl | hmem
            · exact absurd hcode hop
            · exact Or.inr ⟨hmem, hcode⟩
    · simp
end Evm

section EvmAnalysisProofs

open Evm

/-- C6 (amended): `jumpdest_map` has the code's length and is `true`
exactly at the instruction-start positions (not inside a `PUSHn`
immediate) holding a `JUMPDEST` opcode; `padded_code` is the original code
followed by `scanEnd + 1 − len ≥ 1` trailing `STOP` bytes — exactly one
unless the code ends inside a truncated `PUSHn` immediate, in which case
the padding also covers the missing immediate bytes.  The analysis is a
pure function of the bytes. -/
theorem c6_analyze_spec (code : Bytes) :
    (analyze code).jumpdestMap.length = code.length ∧
    (∀ p : Nat, (analyze code).jumpdestMap[p]? = some true ↔
      (p ∈ insnStarts code code.length 0 ∧ code.getD p 0 = JUMPDEST)) ∧
    code.length ≤ scanEnd code ∧
    (analyze code).paddedCode =
      code ++ List.replicate (scanEnd code + 1 - code.length) STOP := by
  have hge : code.length ≤ scanEnd code :=
    analyzeScan_end_ge code code.length 0 _ (by omega)
  refine ⟨?_, ?_, hge, ?_⟩
  · simp [analyze, analyzeScan_map_length]
  · intro p
    rw [show (analyze code).jumpdestMap =
        (analyzeScan code code.length 0 (List.replicate code.length false)).1
      from rfl]
    rw [analyzeScan_spec code code.length 0 _ (by simp) p]
    have : (List.replicate code.length false)[p]? ≠ some true := by
      by_cases hp : p < code.length
      · simp [List.getElem?_replicate, hp]
      · rw [List.getElem?_eq_none (by simpa using hp)]
        simp
    tauto
  · show code.take (scanEnd code + 1) ++ _ = _
    rw [List.take_of_length_le (by omega)]
    rfl

/-- C6 counterexample: for code `[0x60]` (a `PUSH1` whose immediate is cut
off by the end of the code) `padded_code` is `[0x60, 0x00, 0x00]` — the
original byte plus two `STOP` bytes, not one. -/
theorem c6_analyze_counterexample :
    ¬((analyze [0x60]).paddedCode = [0x60] ++ [STOP]) := by
  decide

end EvmAnalysisProofs

/-! ## trie/prefix_set.rs : `PrefixSet` (claim C9)

Byte strings are ordered by the Mathlib lexicographic order on `List Nat`,
which coincides with Rust's `Ord` for byte slices (elementwise comparison,
a strict prefix sorts before its extensions). -/

namespace PrefixSetImpl

/-- `trie/prefix_set.rs` `PrefixSet`: key vector, sorted flag, cursor. -/
structure PrefixSet where
  keys : List Bytes
  sorted : Bool
  index : Nat
  deriving DecidableEq, Repr

/-- `PrefixSet::default()`. -/
def PrefixSet.empty : PrefixSet := ⟨[], false, 0⟩

/-- `PrefixSet::insert`: push the key and clear the sorted flag. -/
def PrefixSet.insert (s : PrefixSet) (key : Bytes) : PrefixSet :=
  { s with keys := s.keys ++ [key], sorted := false }

/-- `Vec::dedup_by(|a, b| a.eq(b))`: collapse runs of equal adjacent keys. -/
def dedupAdj : List Bytes → List Bytes
  | [] => []
  | [x] => [x]
  | x :: y :: r => if x = y then dedupAdj (y :: r) else x :: dedupAdj (y :: r)

/-- `self.keys.sort_unstable()` followed by the dedup: the normalised key
vector used by `contains`. -/
def normalize (l : List Bytes) : List Bytes :=
  dedupAdj (List.insertionSort (· ≤ ·) l)

/-- The `while self.index > 0 && self.keys[self.index] > prefix` loop of
`contains`: move the cursor down to the last position not above the
prefix. -/
def downLoop (keys : List Bytes) (p : Bytes) : Nat → Nat
  | 0 => 0
  | i + 1 => if p < keys.getD (i + 1) [] then downLoop keys p i else i + 1

/-- The forward `loop` of `contains`; returns the result and the final
cursor.  `fuel` bounds the iteration count; the loop advances the cursor by
one and stops at the last index, so `keys.length` iterations suffice. -/
def scanLoop (keys : List Bytes) (p : Bytes) : Nat → Nat → Bool × Nat
  | 0, i => (false, i)
  | fuel + 1, i =>
    if p.isPrefixOf (keys.getD i []) then (true, i)
    else if p < keys.getD i [] then (false, i)
    else if i = keys.length - 1 then (false, i)
    else scanLoop keys p fuel (i + 1)

/-- `PrefixSet::contains`.  `none` models the `assert!(self.index <
self.keys.len())` panic, which never fires on reachable states. -/
def PrefixSet.contains (s : PrefixSet) (p : Bytes) : Option (Bool × PrefixSet) :=
  if s.keys.isEmpty then some (false, s)
  else
    let keys := if s.sorted then s.keys else normalize s.keys
    if s.index < keys.length then
      let j := downLoop keys p s.index
      let ri := scanLoop keys p keys.length j
      some (ri.1, ⟨keys, s.sorted, ri.2⟩)
    else none

/-- One interaction with the set. -/
inductive Op where
  | ins (key : Bytes)
  | query (p : Bytes)

/-- Run a sequence of `insert` and `contains` calls from a state. -/
def runOps : PrefixSet → List Op → Option PrefixSet
  | s, [] => some s
  | s, .ins k :: r => runOps (s.insert k) r
  | s, .query p :: r =>
    match s.contains p with
    | some rs => runOps rs.2 r
    | none => none

/-- The keys inserted by a sequence of interactions. -/
def insertedKeys (ops : List Op) : List Bytes :=
  ops.filterMap fun o =>
    match o with
    | .ins k => some k
    | .query _ => none

theorem mem_dedupAdj : ∀ (l : List Bytes) (z : Bytes), z ∈ dedupAdj l ↔ z ∈ l
  | [], z => by simp [dedupAdj]
  | [x], z => by simp [dedupAdj]
  | x :: y :: r, z => by
    by_cases hxy : x = y
    · subst hxy
      rw [dedupAdj, if_pos rfl, mem_dedupAdj (x :: r)]
      simp
    · rw [dedupAdj, if_neg hxy]
      simp [mem_dedupAdj (y :: r) z]

theorem dedupAdj_pairwise_lt :
    ∀ l : List Bytes, l.Pairwise (· ≤ ·) → (dedupAdj l).Pairwise (· < ·)
  | [], _ => by simp [dedupAdj]
  | [x], _ => by simp [dedupAdj]
  | x :: y :: r, h => by
    have hxall : ∀ w ∈ y :: r, x ≤ w := (List.pairwise_cons.mp h).1
    have hs : (y :: r).Pairwise (· ≤ ·) := (List.pairwise_cons.mp h).2
    by_cases hxy : x = y
    · subst hxy
      rw [dedupAdj, if_pos rfl]
      exact dedupAdj_pairwise_lt (x :: r) hs
    · rw [dedupAdj, if_neg hxy]
      refine List.Pairwise.cons ?_ (dedupAdj_pairwise_lt (y :: r) hs)
      intro z hz
      rw [mem_dedupAdj] at hz
      have hxy' : x < y := lt_of_le_of_ne (hxall y (by simp)) hxy
      rcases List.mem_cons.mp hz with rfl | hz
      · exact hxy'
      · exact lt_of_lt_of_le hxy' ((List.pairwise_cons.mp hs).1 z hz)

theorem mem_normalize (l : List Bytes) (z : Bytes) : z ∈ normalize l ↔ z ∈ l := by
  rw [normalize, mem_dedupAdj]
  exact (List.perm_insertionSort (· ≤ ·) l).mem_iff

theorem normalize_pairwise (l : List Bytes) : (normalize l).Pairwise (· < ·) :=
  dedupAdj_pairwise_lt _ (List.sorted_insertionSort (· ≤ ·) l)

theorem normalize_nodup (l : List Bytes) : (normalize l).Nodup :=
  (normalize_pairwise l).imp ne_of_lt

theorem normalize_toFinset (l : List Bytes) :
    (normalize l).toFinset = l.toFinset := by
  ext z
  simp [mem_normalize]

theorem normalize_length (l : List Bytes) :
    (normalize l).length = l.toFinset.card := by
  rw [← normalize_toFinset, List.toFinset_card_of_nodup (normalize_nodup l)]

/-- Invariant of reachable `PrefixSet` states. -/
def Inv (s : PrefixSet) : Prop :=
  s.sorted = false ∧ (s.keys = [] → s.index = 0) ∧
    (s.keys ≠ [] → s.index < (normalize s.keys).length)

theorem inv_empty : Inv PrefixSet.empty := by
  refine ⟨rfl, fun _ => rfl, fun h => absurd rfl h⟩

theorem inv_insert {s : PrefixSet} (h : Inv s) (k : Bytes) :
    Inv (s.insert k) := by
  obtain ⟨hsort, hemp, hne⟩ := h
  refine ⟨rfl, by simp [PrefixSet.insert], ?_⟩
  intro _
  show s.index < (normalize (s.keys ++ [k])).length
  rw [normalize_length]
  rcases eq_or_ne s.keys [] with he | hne'
  · rw [hemp he, he]
    simp
  · calc s.index < (normalize s.keys).length := hne hne'
    _ = s.keys.toFinset.card := normalize_length s.keys
    _ ≤ (s.keys ++ [k]).toFinset.card := by
        apply Finset.card_le_card
        intro z hz
        simp only [List.toFinset_append, Finset.mem_union]
        exact Or.inl hz

theorem prefix_le {p k : Bytes} (h : p <+: k) : p ≤ k := by
  obtain ⟨t, rfl⟩ := h
  induction p with
  | nil => exact List.nil_le
  | cons a p ih => exact List.cons_le_cons a ih

/-- If `p < x`, `p` is not a prefix of `x`, and `p` is a prefix of `y`,
then `y < x`: a key above a non-extension of the prefix cannot extend the
prefix. -/
theorem lt_of_prefix_of_lt {p x y : Bytes} (hpx : List.Lex (· < ·) p x)
    (hnpre : ¬p <+: x) (hpy : p <+: y) : List.Lex (· < ·) y x := by
  induction hpx generalizing y with
  | nil => exact absurd (List.nil_prefix) hnpre
  | @rel a as b bs hab =>
    obtain ⟨t, rfl⟩ := hpy
    exact List.Lex.rel hab
  | @cons a as bs hlex ih =>
    obtain ⟨t, rfl⟩ := hpy
    rw [List.cons_append]
    refine List.Lex.cons (ih ?_ ⟨t, rfl⟩)
    intro hpre
    exact hnpre ((List.cons_prefix_cons).mpr ⟨rfl, hpre⟩)

theorem lex_of_lt {a b : Bytes} (h : a < b) : List.Lex (· < ·) a b := h

theorem downLoop_le (keys : List Bytes) (p : Bytes) :
    ∀ i, downLoop keys p i ≤ i := by
  intro i
  induction i with
  | zero => exact Nat.le_refl _
  | succ i ih =>
    rw [downLoop]
    split
    · omega
    · omega

theorem downLoop_prop (keys : List Bytes) (p : Bytes) :
    ∀ i, downLoop keys p i = 0 ∨
      ¬(p < keys.getD (downLoop keys p i) []) := by
  intro i
  induction i with
  | zero => exact Or.inl rfl
  | succ i ih =>
    rw [downLoop]
    split
    · exact ih
    · rename_i hlt
      exact Or.inr hlt

theorem pairwise_getD_lt {keys : List Bytes} (hsort : keys.Pairwise (· < ·))
    {m n : Nat} (hm : m < n) (hn : n < keys.length) :
    keys.getD m [] < keys.getD n [] := by
  rw [List.getD_eq_getElem _ _ (by omega), List.getD_eq_getElem _ _ hn]
  exact List.pairwise_iff_getElem.mp hsort m n (by omega) hn hm

theorem scanLoop_correct (keys : List Bytes) (p : Bytes)
    (hsort : keys.Pairwise (· < ·)) :
    ∀ fuel j, j < keys.length → keys.length - j ≤ fuel →
      (∀ m, m < j → keys.getD m [] < p) →
      (((scanLoop keys p fuel j).1 = true ↔ ∃ k ∈ keys, p <+: k) ∧
        (scanLoop keys p fuel j).2 < keys.length) := by
  intro fuel
  induction fuel with
  | zero =>
    intro j hj hfuel _
    omega
  | succ fuel ih =>
    intro j hj hfuel hbelow
    rw [scanLoop]
    split
    · rename_i hpre
      refine ⟨⟨fun _ => ⟨keys.getD j [], ?_, ?_⟩, fun _ => rfl⟩, hj⟩
      · rw [List.getD_eq_getElem _ _ hj]
        exact List.getElem_mem hj
      · exact List.isPrefixOf_iff_prefix.mp hpre
    · rename_i hpre
      split
      · rename_i hlt
        refine ⟨⟨fun h => absurd h (by simp), fun hex => ?_⟩, hj⟩
        exfalso
        obtain ⟨k, hk, hkpre⟩ := hex
        obtain ⟨m, hm, rfl⟩ := List.getElem_of_mem hk
        have hnp : ¬p <+: keys.getD j [] := fun hc =>
          hpre (List.isPrefixOf_iff_prefix.mpr hc)
        rcases lt_trichotomy m j with hmj | rfl | hmj
        · have := hbelow m hmj
          rw [List.getD_eq_getElem _ _ hm] at this
          exact absurd (prefix_le hkpre) (not_le_of_lt this)
        · rw [List.getD_eq_getElem _ _ hj] at hnp
          exact hnp hkpre
        · have hjm : keys.getD j [] < keys.getD m [] :=
            pairwise_getD_lt hsort hmj hm
          have hyx : List.Lex (· < ·) (keys.getD m []) (keys.getD j []) := by
            refine lt_of_prefix_of_lt (lex_of_lt hlt) hnp ?_
            rw [List.getD_eq_getElem _ _ hm]
            exact hkpre
          rw [List.getD_eq_getElem _ _ hm] at hyx hjm
          exact absurd hyx (asymm hjm)
      · rename_i hlt
        split
        · rename_i hlast
          refine ⟨⟨fun h => absurd h (by simp), fun hex => ?_⟩, hj⟩
          exfalso
          obtain ⟨k, hk, hkpre⟩ := hex
          obtain ⟨m, hm, rfl⟩ := List.getElem_of_mem hk
          have hmj : m ≤ j := by omega
          rcases lt_or_eq_of_le hmj with hmj | rfl
          · have := hbelow m hmj
            rw [List.getD_eq_getElem _ _ hm] at this
            exact absurd (prefix_le hkpre) (not_le_of_lt this)
          · rw [List.getD_eq_getElem _ _ hj] at hpre
            exact hpre (List.isPrefixOf_iff_prefix.mpr hkpre)
        · rename_i hlast
          refine ih (j + 1) (by omega) (by omega) ?_
          intro m hm
          rcases Nat.lt_succ_iff_lt_or_eq.mp hm with hm' | rfl
          · exact hbelow m hm'
          · have hne : keys.getD m [] ≠ p := by
              intro he
              apply hpre
              rw [he]
              exact List.isPrefixOf_iff_prefix.mpr (List.prefix_refl p)
            have hle : keys.getD m [] ≤ p := le_of_not_lt hlt
            exact lt_of_le_of_ne hle hne

/-- Correctness of a single `contains` call on an invariant state: the
result decides "some key extends the prefix", the key set is unchanged,
the assert cannot fire, and the invariant is preserved. -/
theorem contains_correct (s : PrefixSet) (p : Bytes) (h : Inv s) :
    ∃ r : Bool × PrefixSet, s.contains p = some r ∧
      (r.1 = true ↔ ∃ k ∈ s.keys, p <+: k) ∧ Inv r.2 ∧
      r.2.keys.toFinset = s.keys.toFinset := by
  obtain ⟨hsort, hemp, hne⟩ := h
  by_cases he : s.keys.isEmpty
  · refine ⟨(false, s), by simp only [PrefixSet.contains]; rw [if_pos he],
      ?_, ⟨hsort, hemp, hne⟩, rfl⟩
    have : s.keys = [] := List.isEmpty_iff.mp he
    simp [this]
  · have hkeysne : s.keys ≠ [] := fun hc => he (by simp [hc])
    have hidx : s.index < (normalize s.keys).length := hne hkeysne
    have hpair := normalize_pairwise s.keys
    have hj : downLoop (normalize s.keys) p s.index < (normalize s.keys).length :=
      lt_of_le_of_lt (downLoop_le _ _ _) hidx
    have hbelow : ∀ m, m < downLoop (normalize s.keys) p s.index →
        (normalize s.keys).getD m [] < p := by
      intro m hm
      rcases downLoop_prop (normalize s.keys) p s.index with h0 | hstop
      · omega
      · have hlt : (normalize s.keys).getD m [] <
            (normalize s.keys).getD (downLoop (normalize s.keys) p s.index) [] :=
          pairwise_getD_lt hpair hm hj
        exact lt_of_lt_of_le hlt (le_of_not_lt hstop)
    obtain ⟨hiff, hlt⟩ := scanLoop_correct (normalize s.keys) p hpair
      (normalize s.keys).length (downLoop (normalize s.keys) p s.index) hj
      (by omega) hbelow
    refine ⟨((scanLoop (normalize s.keys) p (normalize s.keys).length
        (downLoop (normalize s.keys) p s.index)).1,
        ⟨normalize s.keys, s.sorted,
          (scanLoop (normalize s.keys) p (normalize s.keys).length
            (downLoop (normalize s.keys) p s.index)).2⟩), ?_, ?_, ?_, ?_⟩
    · simp only [PrefixSet.contains, hsort]
      rw [if_neg (show ¬(s.keys.isEmpty = true) by simpa using he)]
      simp only [Bool.false_eq_true, if_false]
      rw [if_pos hidx]
    · rw [hiff]
      constructor
      · rintro ⟨k, hk, hp⟩
        exact ⟨k, (mem_normalize s.keys k).mp hk, hp⟩
      · rintro ⟨k, hk, hp⟩
        exact ⟨k, (mem_normalize s.keys k).mpr hk, hp⟩
    · refine ⟨hsort, ?_, ?_⟩
      · intro hc
        exfalso
        have hkeq : normalize s.keys = [] := hc
        rw [hkeq] at hidx
        simp at hidx
      · intro _
        show (scanLoop _ _ _ _).2 < (normalize (normalize s.keys)).length
        have : (normalize (normalize s.keys)).length = (normalize s.keys).length := by
          rw [normalize_length, normalize_length, normalize_toFinset]
        omega
    · exact normalize_toFinset s.keys

/-- Running any interaction sequence from an invariant state preserves the
invariant and accumulates exactly the inserted keys. -/
theorem runOps_correct (ops : List Op) :
    ∀ s : PrefixSet, Inv s →
      ∃ s', runOps s ops = some s' ∧ Inv s' ∧
        s'.keys.toFinset = s.keys.toFinset ∪ (insertedKeys ops).toFinset := by
  induction ops with
  | nil =>
    intro s hs
    refine ⟨s, rfl, hs, by simp [insertedKeys]⟩
  | cons o r ih =>
    intro s hs
    cases o with
    | ins k =>
      obtain ⟨s', hrun, hinv, hset⟩ := ih (s.insert k) (inv_insert hs k)
      refine ⟨s', hrun, hinv, ?_⟩
      rw [hset]
      show (s.keys ++ [k]).toFinset ∪ _ = _
      ext z
      simp [insertedKeys, or_assoc]
      tauto
    | query p =>
      obtain ⟨rp, hc, _, hinv, hset⟩ := contains_correct s p hs
      obtain ⟨s', hrun, hinv', hset'⟩ := ih rp.2 hinv
      refine ⟨s', ?_, hinv', ?_⟩
      · rw [runOps, hc]
        exact hrun
      · rw [hset', hset]
        have : insertedKeys (Op.query p :: r) = insertedKeys r := by
          simp [insertedKeys]
        rw [this]

end PrefixSetImpl

section PrefixSetProofs

open PrefixSetImpl

/-- C9: for every sequence of `PrefixSet::insert` and `PrefixSet::contains`
calls starting from the empty set, a `contains p` query returns `true` iff
some previously inserted key has `p` as a prefix — independently of the
insertion order, of duplicate insertions and of which queries were made
earlier (the retained cursor never changes an answer), and the internal
`assert!` never fires. -/
theorem c9_prefix_set_contains (ops : List Op) (p : Bytes) :
    ∃ (s : PrefixSet) (r : Bool × PrefixSet),
      runOps PrefixSet.empty ops = some s ∧ s.contains p = some r ∧
      (r.1 = true ↔ ∃ k ∈ insertedKeys ops, p <+: k) := by
  obtain ⟨s, hrun, hinv, hset⟩ := runOps_correct ops PrefixSet.empty inv_empty
  obtain ⟨r, hc, hiff, _, _⟩ := contains_correct s p hinv
  refine ⟨s, r, hrun, hc, ?_⟩
  rw [hiff]
  constructor
  · rintro ⟨k, hk, hp⟩
    refine ⟨k, ?_, hp⟩
    have : k ∈ s.keys.toFinset := List.mem_toFinset.mpr hk
    rw [hset] at this
    simp only [Finset.mem_union, List.mem_toFinset] at this
    rcases this with hc' | hc'
    · simp [PrefixSet.empty] at hc'
    · exact hc'
  · rintro ⟨k, hk, hp⟩
    refine ⟨k, ?_, hp⟩
    have : k ∈ s.keys.toFinset := by
      rw [hset]
      simp only [Finset.mem_union, List.mem_toFinset]
      exact Or.inr hk
    exact List.mem_toFinset.mp this

end PrefixSetProofs

/-! ## kv/mdbx.rs : auto-dup-sort cursors (claims C2, C3, C10)

The underlying MDBX B-tree is modelled as an association list from keys to
ascending duplicate-value lists, with an explicit cursor position.  The
primitive cursor operations are modelled from the spec (§4.1 cursor
contract and the documented MDBX DupSort semantics); `put_autodupsort`,
`delete_autodupsort`, `seek_autodupsort`, `seek_exact`,
`auto_dup_sort_from_db` and `MutableCursor::put` are translated from
`src/kv/mdbx.rs`. -/

namespace Mdbx

/-- A DupSort table: keys mapped to their duplicate-value lists, both in
ascending lexicographic order. -/
abbrev DupStore := List (Bytes × List Bytes)

/-- A cursor over a DupSort table: the table plus the current position. -/
structure MCursor where
  store : DupStore
  pos : Option (Bytes × Bytes)
  deriving DecidableEq, Repr

/-- Plain lookup of a key's duplicate list. -/
def lookupDups : DupStore → Bytes → Option (List Bytes)
  | [], _ => none
  | (k', vs) :: r, k => if k' = k then some vs else lookupDups r k

/-- Insert a value into an ascending duplicate list (no-op if present). -/
def insertSortedVal (v : Bytes) : List Bytes → List Bytes
  | [] => [v]
  | w :: ws =>
    if w < v then w :: insertSortedVal v ws
    else if w = v then w :: ws
    else v :: w :: ws

/-- Insert a `(key, value)` pair, keeping keys and duplicates ascending. -/
def storeInsert : DupStore → Bytes → Bytes → DupStore
  | [], k, v => [(k, [v])]
  | (k', vs) :: r, k, v =>
    if k' < k then (k', vs) :: storeInsert r k v
    else if k' = k then (k, insertSortedVal v vs) :: r
    else (k, [v]) :: (k', vs) :: r

/-- Remove one `(key, value)` pair, dropping the key when its duplicate
list becomes empty. -/
def storeRemove : DupStore → Bytes → Bytes → DupStore
  | [], _, _ => []
  | (k', vs) :: r, k, v =>
    if k' = k then
      let vs' := vs.erase v
      if vs'.isEmpty then r else (k', vs') :: r
    else (k', vs) :: storeRemove r k v

/-- Modelled from the spec: MDBX `GET_BOTH_RANGE` — position at the first
duplicate of `k` that is ≥ `v` (spec §4.1 `seek_both_range`). -/
def mGetBothRange (c : MCursor) (k v : Bytes) : Option Bytes × MCursor :=
  match lookupDups c.store k with
  | none => (none, c)
  | some vs =>
    match vs.find? (fun w => decide (v ≤ w)) with
    | none => (none, c)
    | some w => (some w, { c with pos := some (k, w) })

/-- Modelled from the spec: MDBX `put` with `WriteFlags::default()`
(upsert) — add the duplicate under the key. -/
def mPut (c : MCursor) (k v : Bytes) : MCursor :=
  { store := storeInsert c.store k v, pos := some (k, v) }

/-- Modelled from the spec: MDBX `put` with `NO_OVERWRITE` — fail with
`KeyExist` (cursor parked on the existing pair) when the key is present. -/
def mPutNoOverwrite (c : MCursor) (k v : Bytes) : Except MCursor MCursor :=
  match lookupDups c.store k with
  | some vs =>
    .error { c with pos := match vs.head? with
                           | some w => some (k, w)
                           | none => none }
  | none => .ok (mPut c k v)

/-- Modelled from the spec: MDBX `put` with `CURRENT` — replace the pair
at the cursor position. -/
def mPutCurrent (c : MCursor) (v : Bytes) : MCursor :=
  match c.pos with
  | none => c
  | some (k, w) =>
    { store := storeInsert (storeRemove c.store k w) k v, pos := some (k, v) }

/-- Modelled from the spec: MDBX `del` with `CURRENT` — delete the pair at
the cursor position. -/
def mDelCurrent (c : MCursor) : MCursor :=
  match c.pos with
  | none => c
  | some (k, w) => { store := storeRemove c.store k w, pos := none }

/-- Modelled from the spec: MDBX `SET` — position at the exact key and
return its first duplicate. -/
def mSet (c : MCursor) (k : Bytes) : Option Bytes × MCursor :=
  match lookupDups c.store k with
  | none => (none, c)
  | some vs =>
    match vs.head? with
    | none => (none, c)
    | some w => (some w, { c with pos := some (k, w) })

/-- Modelled from the spec: MDBX `SET_RANGE` — position at the first key
≥ `k` and return it with its first duplicate. -/
def mSetRange (c : MCursor) (k : Bytes) : Option (Bytes × Bytes) × MCursor :=
  match c.store.find? (fun e => decide (k ≤ e.1)) with
  | none => (none, c)
  | some (k', vs) =>
    match vs.head? with
    | none => (none, c)
    | some w => (some (k', w), { c with pos := some (k', w) })

/-- Modelled from the spec: MDBX `FIRST`. -/
def mFirst (c : MCursor) : Option (Bytes × Bytes) × MCursor :=
  match c.store.head? with
  | none => (none, c)
  | some (k, vs) =>
    match vs.head? with
    | none => (none, c)
    | some w => (some (k, w), { c with pos := some (k, w) })

/-- Modelled from the spec: MDBX `NEXT` — next duplicate of the current
key, else the first duplicate of the next key. -/
def mNext (c : MCursor) : Option (Bytes × Bytes) × MCursor :=
  match c.pos with
  | none => mFirst c
  | some (k, w) =>
    let nextKey :=
      match c.store.find? (fun e => decide (k < e.1)) with
      | none => (none, c)
      | some (k', vs) =>
        match vs.head? with
        | none => (none, c)
        | some w' => (some (k', w'), { c with pos := some (k', w') })
    match lookupDups c.store k with
    | none => nextKey
    | some vs =>
      match vs.find? (fun x => decide (w < x)) with
      | none => nextKey
      | some x => (some (k, x), { c with pos := some (k, x) })

/-- `put_autodupsort` from `kv/mdbx.rs`. -/
def putAutodupsort (c : MCursor) (f t : Nat) (key value : Bytes) :
    Except String MCursor :=
  if key.length ≠ f ∧ key.length ≥ t then
    .error "put dupsort table: invalid key length"
  else if key.length ≠ f then
    match mPutNoOverwrite c key value with
    | .error c' => .ok (mPutCurrent c' value)
    | .ok c' => .ok c'
  else
    let value' := key.drop t ++ value
    let key' := key.take t
    match mGetBothRange c key' (value'.take (f - t)) with
    | (none, c') => .ok (mPut c' key' value')
    | (some v, c') =>
      if v.take (f - t) = value'.take (f - t) then
        if v.length = value'.length then .ok (mPutCurrent c' value')
        else .ok (mPut (mDelCurrent c') key' value')
      else .ok (mPut c' key' value')

/-- `delete_autodupsort` from `kv/mdbx.rs`. -/
def deleteAutodupsort (c : MCursor) (f t : Nat) (key : Bytes) :
    Except String MCursor :=
  if key.length ≠ f ∧ key.length ≥ t then
    .error "delete from dupsort table: invalid key length"
  else if key.length = f then
    match mGetBothRange c (key.take t) (key.drop t) with
    | (some v, c') =>
      if v.take (f - t) = key.drop t then .ok (mDelCurrent c') else .ok c'
    | (none, c') => .ok c'
  else
    match mSet c key with
    | (some _, c') => .ok (mDelCurrent c')
    | (none, c') => .ok c'

/-- `seek_autodupsort` from `kv/mdbx.rs`. -/
def seekAutodupsort (c : MCursor) (f t : Nat) (seek : Bytes) :
    Option (Bytes × Bytes) × MCursor :=
  if seek.isEmpty then
    match mFirst c with
    | (none, c') => (none, c')
    | (some (k, v), c') =>
      if k.length = t then (some (k ++ v.take (f - t), v.drop (f - t)), c')
      else (some (k, v), c')
  else
    let seek1 := if seek.length > t then seek.take t else seek
    let seek2 := if seek.length > t then some (seek.drop t) else none
    match mSetRange c seek1 with
    | (none, c1) => (none, c1)
    | (some (k0, v0), c1) =>
      let step : Option (Bytes × Bytes) × MCursor :=
        match seek2 with
        | some s2 =>
          if seek1 = k0 then
            match mGetBothRange c1 seek1 s2 with
            | (some v', c2) => (some (k0, v'), c2)
            | (none, c2) => mNext c2
          else (some (k0, v0), c1)
        | none => (some (k0, v0), c1)
      match step with
      | (none, c2) => (none, c2)
      | (some (k, v), c2) =>
        if k.length = t then (some (k ++ v.take (f - t), v.drop (f - t)), c2)
        else (some (k, v), c2)

/-- The auto-dup branch of `MdbxCursor::seek_exact` from `kv/mdbx.rs`. -/
def seekExactAuto (c : MCursor) (f t : Nat) (key : Bytes) :
    Option (Bytes × Bytes) × MCursor :=
  match mGetBothRange c (key.take t) (key.drop t) with
  | (none, c') => (none, c')
  | (some v, c') =>
    if key.drop t = v.take (f - t) then
      (some (key.take t, v.drop (f - t)), c')
    else (none, c')

/-- `auto_dup_sort_from_db` from `kv/mdbx.rs`: re-merge a stored pair on
the read path (`next`, `prev`, `last`, `current`). -/
def autoDupSortFromDb (f t : Nat) (k v : Bytes) : Bytes × Bytes :=
  if k.length = t then (k ++ v.take (f - t), v.drop (f - t)) else (k, v)

/-- `MutableCursor::put` from `kv/mdbx.rs`: reject the empty key, then
dispatch on the auto-dup configuration. -/
def mutPut (c : MCursor) (cfg : Option (Nat × Nat)) (key value : Bytes) :
    Except String MCursor :=
  if key.isEmpty then .error "Key must not be empty"
  else
    match cfg with
    | some ft => putAutodupsort c ft.1 ft.2 key value
    | none => .ok (mPut c key value)

/-- Keys of the table are strictly ascending. -/
def keysSorted (st : DupStore) : Prop :=
  (st.map Prod.fst).Pairwise (· < ·)

/-- The B-tree invariant: ascending unique keys, non-empty ascending
duplicate lists. -/
def StoreInv (st : DupStore) : Prop :=
  keysSorted st ∧ ∀ e ∈ st, e.2 ≠ [] ∧ e.2.Pairwise (· < ·)

theorem mem_insertSortedVal (v : Bytes) :
    ∀ (l : List Bytes) (z : Bytes), z ∈ insertSortedVal v l ↔ z = v ∨ z ∈ l
  | [], z => by simp [insertSortedVal]
  | w :: ws, z => by
    simp only [insertSortedVal]
    split
    · simp only [List.mem_cons, mem_insertSortedVal v ws z]
      tauto
    · split
      · rename_i hlt heq
        subst heq
        simp only [List.mem_cons]
        tauto
      · simp only [List.mem_cons]

theorem self_mem_insertSortedVal (v : Bytes) (l : List Bytes) :
    v ∈ insertSortedVal v l :=
  (mem_insertSortedVal v l v).mpr (Or.inl rfl)

theorem insertSortedVal_pairwise (v : Bytes) :
    ∀ l : List Bytes, l.Pairwise (· < ·) → (insertSortedVal v l).Pairwise (· < ·)
  | [], _ => by simp [insertSortedVal]
  | w :: ws, h => by
    obtain ⟨hw, hws⟩ := List.pairwise_cons.mp h
    simp only [insertSortedVal]
    split
    · rename_i hlt
      refine List.pairwise_cons.mpr ⟨?_, insertSortedVal_pairwise v ws hws⟩
      intro z hz
      rcases (mem_insertSortedVal v ws z).mp hz with rfl | hz
      · exact hlt
      · exact hw z hz
    · split
      · rename_i hlt heq
        subst heq
        exact h
      · rename_i hlt hne
        have hvw : v < w := by
          rcases lt_trichotomy w v with h1 | h1 | h1
          · exact absurd h1 hlt
          · exact absurd h1 hne
          · exact h1
        refine List.pairwise_cons.mpr ⟨?_, h⟩
        intro z hz
        rcases List.mem_cons.mp hz with rfl | hz
        · exact hvw
        · exact lt_trans hvw (hw z hz)

theorem lookupDups_mem {st : DupStore} {k : Bytes} {vs : List Bytes}
    (h : lookupDups st k = some vs) : (k, vs) ∈ st := by
  induction st with
  | nil => cases h
  | cons e r ih =>
    obtain ⟨k', vs'⟩ := e
    rw [lookupDups] at h
    split at h
    · rename_i heq
      obtain ⟨⟩ := Option.some.inj h
      subst heq
      exact List.mem_cons_self _ _
    · exact List.mem_cons_of_mem _ (ih h)

theorem lookupDups_none_of_gt {st : DupStore} {k : Bytes}
    (h : ∀ e ∈ st, k < e.1) : lookupDups st k = none := by
  induction st with
  | nil => rfl
  | cons e r ih =>
    obtain ⟨k', vs'⟩ := e
    rw [lookupDups]
    rw [if_neg (by
      intro hc
      exact absurd (h (k', vs') (by simp)) (by rw [hc]; exact lt_irrefl k))]
    exact ih fun e he => h e (List.mem_cons_of_mem _ he)

theorem keysSorted_tail {e : Bytes × List Bytes} {r : DupStore}
    (h : keysSorted (e :: r)) : keysSorted r := by
  exact (List.pairwise_cons.mp h).2

theorem keysSorted_head {e : Bytes × List Bytes} {r : DupStore}
    (h : keysSorted (e :: r)) : ∀ e' ∈ r, e.1 < e'.1 := by
  intro e' he'
  exact (List.pairwise_cons.mp h).1 e'.1 (List.mem_map_of_mem Prod.fst he')

theorem lookup_storeInsert_self {k v : Bytes} :
    ∀ st : DupStore, keysSorted st →
      lookupDups (storeInsert st k v) k =
        some (insertSortedVal v ((lookupDups st k).getD []))
  | [], _ => by simp [storeInsert, lookupDups, insertSortedVal]
  | (k', vs) :: r, h => by
    simp only [storeInsert]
    split
    · rename_i hlt
      rw [lookupDups, if_neg (fun hc => absurd hlt (by rw [hc]; exact lt_irrefl k)),
        lookupDups, if_neg (fun hc => absurd hlt (by rw [hc]; exact lt_irrefl k))]
      exact lookup_storeInsert_self r (keysSorted_tail h)
    · split
      · rename_i hlt heq
        subst heq
        rw [lookupDups, if_pos rfl, lookupDups, if_pos rfl]
        rfl
      · rename_i hlt hne
        have hk : k < k' := by
          rcases lt_trichotomy k' k with h1 | h1 | h1
          · exact absurd h1 hlt
          · exact absurd h1 hne
          · exact h1
        rw [lookupDups, if_pos rfl, lookupDups,
          if_neg (fun hc => absurd hk (by rw [hc]; exact lt_irrefl k))]
        rw [lookupDups_none_of_gt (fun e he => lt_trans hk (keysSorted_head h e he))]
        rfl

theorem storeInsert_keys_mem {k v : Bytes} {e : Bytes × List Bytes} :
    ∀ {st : DupStore}, e ∈ storeInsert st k v → e.1 = k ∨ e ∈ st := by
  intro st
  induction st with
  | nil =>
    intro h
    simp only [storeInsert, List.mem_singleton] at h
    subst h
    exact Or.inl rfl
  | cons e' r ih =>
    obtain ⟨k', vs⟩ := e'
    intro h
    simp only [storeInsert] at h
    split at h
    · rcases List.mem_cons.mp h with rfl | h
      · exact Or.inr (List.mem_cons_self _ _)
      · rcases ih h with h | h
        · exact Or.inl h
        · exact Or.inr (List.mem_cons_of_mem _ h)
    · split at h
      · rcases List.mem_cons.mp h with rfl | h
        · exact Or.inl rfl
        · exact Or.inr (List.mem_cons_of_mem _ h)
      · rcases List.mem_cons.mp h with rfl | h
        · exact Or.inl rfl
        · exact Or.inr h

theorem storeInsert_keysSorted {k v : Bytes} :
    ∀ st : DupStore, keysSorted st → keysSorted (storeInsert st k v)
  | [], _ => by simp [storeInsert, keysSorted]
  | (k', vs) :: r, h => by
    simp only [storeInsert]
    split
    · rename_i hlt
      refine List.pairwise_cons.mpr
        ⟨?_, storeInsert_keysSorted r (keysSorted_tail h)⟩
      intro z hz
      obtain ⟨e, he, rfl⟩ := List.mem_map.mp hz
      rcases storeInsert_keys_mem he with heq | hmem
      · rw [heq]
        exact hlt
      · exact keysSorted_head h e hmem
    · split
      · rename_i hlt heq
        subst heq
        simpa [keysSorted] using h
      · rename_i hlt hne
        have hk : k < k' := by
          rcases lt_trichotomy k' k with h1 | h1 | h1
          · exact absurd h1 hlt
          · exact absurd h1 hne
          · exact h1
        refine List.pairwise_cons.mpr ⟨?_, h⟩
        intro z hz
        simp only [List.map_cons, List.mem_cons] at hz
        rcases hz with rfl | hz
        · exact hk
        · obtain ⟨e, he, rfl⟩ := List.mem_map.mp hz
          exact lt_trans hk (keysSorted_head h e he)

theorem storeRemove_keys_mem {k v : Bytes} {e : Bytes × List Bytes} :
    ∀ {st : DupStore}, e ∈ storeRemove st k v → ∃ e' ∈ st, e.1 = e'.1 := by
  intro st
  induction st with
  | nil =>
    intro h
    cases h
  | cons e' r ih =>
    obtain ⟨k', vs⟩ := e'
    intro h
    simp only [storeRemove] at h
    split at h
    · split at h
      · exact ⟨e, List.mem_cons_of_mem _ h, rfl⟩
      · rcases List.mem_cons.mp h with rfl | h
        · exact ⟨((k', vs) : Bytes × List Bytes), List.mem_cons_self _ _, rfl⟩
        · exact ⟨e, List.mem_cons_of_mem _ h, rfl⟩
    · rcases List.mem_cons.mp h with rfl | h
      · exact ⟨((k', vs) : Bytes × List Bytes), List.mem_cons_self _ _, rfl⟩
      · obtain ⟨e'', he'', heq⟩ := ih h
        exact ⟨e'', List.mem_cons_of_mem _ he'', heq⟩

theorem storeRemove_keys_sublist {k v : Bytes} :
    ∀ st : DupStore, ((storeRemove st k v).map Prod.fst).Sublist (st.map Prod.fst)
  | [] => List.Sublist.slnil
  | (k', vs) :: r => by
    simp only [storeRemove]
    split
    · split
      · exact List.sublist_cons_of_sublist _ (List.Sublist.refl _)
      · exact List.Sublist.cons₂ _ (List.Sublist.refl _)
    · exact List.Sublist.cons₂ _ (storeRemove_keys_sublist r)

theorem storeRemove_keysSorted {k v : Bytes} {st : DupStore}
    (h : keysSorted st) : keysSorted (storeRemove st k v) :=
  List.Pairwise.sublist (storeRemove_keys_sublist st) h

theorem lookup_storeRemove_getD {k w : Bytes} :
    ∀ st : DupStore, keysSorted st →
      (lookupDups (storeRemove st k w) k).getD [] =
        ((lookupDups st k).getD []).erase w
  | [], _ => by simp [storeRemove, lookupDups]
  | (k', vs) :: r, h => by
    simp only [storeRemove]
    split
    · rename_i heq
      subst heq
      rw [lookupDups, if_pos rfl]
      split
      · rename_i hemp
        rw [lookupDups_none_of_gt (fun e he => keysSorted_head h e he)]
        simp only [Option.getD_none, Option.getD_some]
        exact (List.isEmpty_iff.mp hemp).symm
      · rw [lookupDups, if_pos rfl]
        rfl
    · rename_i hne
      rw [lookupDups, if_neg hne, lookupDups, if_neg hne]
      exact lookup_storeRemove_getD r (keysSorted_tail h)

theorem find?_min_sorted {l : List Bytes} (hs : l.Pairwise (· < ·)) {v w : Bytes}
    (hf : l.find? (fun x => decide (v ≤ x)) = some w) :
    ∀ u ∈ l, v ≤ u → w ≤ u := by
  induction l with
  | nil => cases hf
  | cons a l' ih =>
    obtain ⟨ha, hl'⟩ := List.pairwise_cons.mp hs
    rw [List.find?_cons] at hf
    split at hf
    · obtain ⟨⟩ := Option.some.inj hf
      intro u hu _
      rcases List.mem_cons.mp hu with rfl | hu
      · exact le_refl u
      · exact le_of_lt (ha u hu)
    · rename_i hna
      intro u hu hvu
      rcases List.mem_cons.mp hu with rfl | hu
      · exact absurd (decide_eq_true hvu) (by simpa using hna)
      · exact ih hl' hf u hu hvu

theorem find?_eq_some_min {l : List Bytes} (hs : l.Pairwise (· < ·)) {v x : Bytes}
    (hx : x ∈ l) (hvx : v ≤ x) (hmin : ∀ u ∈ l, v ≤ u → x ≤ u) :
    l.find? (fun w => decide (v ≤ w)) = some x := by
  induction l with
  | nil => cases hx
  | cons a l' ih =>
    obtain ⟨ha, hl'⟩ := List.pairwise_cons.mp hs
    rw [List.find?_cons]
    split
    · rename_i hva
      have hxa : x ≤ a := hmin a (List.mem_cons_self _ _) (of_decide_eq_true hva)
      rcases List.mem_cons.mp hx with rfl | hx
      · rfl
      · exact absurd (ha x hx) (not_lt_of_le hxa)
    · rename_i hva
      have hxne : x ≠ a := by
        intro hc
        subst hc
        exact absurd (decide_eq_true hvx) (by simpa using hva)
      rcases List.mem_cons.mp hx with rfl | hx
      · exact absurd rfl hxne
      · exact ih hl' hx fun u hu hvu => hmin u (List.mem_cons_of_mem _ hu) hvu

theorem storeFind_of_lookup {st : DupStore} (hs : keysSorted st) {k : Bytes}
    {vs : List Bytes} (hl : lookupDups st k = some vs) :
    st.find? (fun e => decide (k ≤ e.1)) = some (k, vs) := by
  induction st with
  | nil => cases hl
  | cons e r ih =>
    obtain ⟨k', vs'⟩ := e
    rw [lookupDups] at hl
    rw [List.find?_cons]
    split
    · rename_i hk
      split at hl
      · rename_i heq
        obtain ⟨⟩ := Option.some.inj hl
        rw [heq]
      · rename_i hne
        exfalso
        have hk' : k ≤ k' := of_decide_eq_true hk
        have hmem : ((k, vs) : Bytes × List Bytes) ∈ r := lookupDups_mem hl
        have hlt : k' < k := keysSorted_head hs (k, vs) hmem
        exact absurd (lt_of_lt_of_le hlt hk') (lt_irrefl k')
    · rename_i hk
      split at hl
      · rename_i heq
        exfalso
        rw [heq] at hk
        simp at hk
      · exact ih (keysSorted_tail hs) hl

theorem keys_ne_storeInsert {st : DupStore} {k v : Bytes}
    (h : ∀ e ∈ st, e.1 ≠ []) (hk : k ≠ []) :
    ∀ e ∈ storeInsert st k v, e.1 ≠ [] := by
  intro e he
  rcases storeInsert_keys_mem he with h1 | h1
  · rw [h1]
    exact hk
  · exact h e h1

theorem keys_ne_storeRemove {st : DupStore} {k v : Bytes}
    (h : ∀ e ∈ st, e.1 ≠ []) :
    ∀ e ∈ storeRemove st k v, e.1 ≠ [] := by
  intro e he
  obtain ⟨e', he', heq⟩ := storeRemove_keys_mem he
  rw [heq]
  exact h e' he'

theorem take_ne_nil {key : Bytes} {t : Nat} (hk : key ≠ []) (ht : 0 < t) :
    key.take t ≠ [] := by
  simp only [ne_eq, List.take_eq_nil_iff]
  push_neg
  exact ⟨by omega, hk⟩

end Mdbx

section MdbxProofs

open Mdbx

/-- C10: `MutableCursor::put` with an empty key fails with an error before
touching the store, and — for any table configuration occurring in
`tables.rs` (no auto-dup split, or an auto-dup split with `to > 0`) — a
successful `put` never writes a zero-length key into the table. -/
theorem c10_put_empty_key :
    (∀ (c : MCursor) (cfg : Option (Nat × Nat)) (v : Bytes),
      mutPut c cfg [] v = .error "Key must not be empty") ∧
    (∀ (c : MCursor) (cfg : Option (Nat × Nat)) (key v : Bytes) (c' : MCursor),
      (∀ e ∈ c.store, e.1 ≠ []) →
      (∀ ft : Nat × Nat, cfg = some ft → 0 < ft.2) →
      mutPut c cfg key v = .ok c' →
      ∀ e ∈ c'.store, e.1 ≠ []) := by
  constructor
  · intro c cfg v
    rfl
  · intro c cfg key v c' hstore hcfg hput
    by_cases hkey : key = []
    · subst hkey
      cases hput
    have hne : ¬(key.isEmpty = true) := by
      simpa using hkey
    simp only [mutPut] at hput
    rw [if_neg hne] at hput
    cases cfg with
    | none =>
      have hc' : mPut c key v = c' := Except.ok.inj hput
      rw [← hc']
      exact keys_ne_storeInsert hstore hkey
    | some ft =>
      obtain ⟨f, t⟩ := ft
      have ht : 0 < t := hcfg (f, t) rfl
      simp only [putAutodupsort] at hput
      split at hput
      · cases hput
      split at hput
      · -- short-key branch: NO_OVERWRITE, then CURRENT on KeyExist
        cases hlk : lookupDups c.store key with
        | none =>
          simp only [mPutNoOverwrite, hlk] at hput
          have hc' : mPut c key v = c' := Except.ok.inj hput
          rw [← hc']
          exact keys_ne_storeInsert hstore hkey
        | some vs =>
          simp only [mPutNoOverwrite, hlk] at hput
          have hc' := Except.ok.inj hput
          rw [← hc']
          cases hv : vs.head? with
          | none =>
            simp only [mPutCurrent, hv]
            exact hstore
          | some w =>
            simp only [mPutCurrent, hv]
            exact keys_ne_storeInsert (keys_ne_storeRemove hstore) hkey
      · -- full-length branch: the on-disk key is `key[..to]`
        have htake : key.take t ≠ [] := take_ne_nil hkey ht
        cases hlk : lookupDups c.store (key.take t) with
        | none =>
          simp only [mGetBothRange, hlk] at hput
          have hc' : mPut c (key.take t) (key.drop t ++ v) = c' :=
            Except.ok.inj hput
          rw [← hc']
          exact keys_ne_storeInsert hstore htake
        | some vs =>
          cases hfind : vs.find?
              (fun w => decide ((key.drop t ++ v).take (f - t) ≤ w)) with
          | none =>
            simp only [mGetBothRange, hlk, hfind] at hput
            have hc' : mPut c (key.take t) (key.drop t ++ v) = c' :=
              Except.ok.inj hput
            rw [← hc']
            exact keys_ne_storeInsert hstore htake
          | some w =>
            simp only [mGetBothRange, hlk, hfind] at hput
            split at hput
            · split at hput
              · have hc' := Except.ok.inj hput
                rw [← hc']
                simp only [mPutCurrent]
                exact keys_ne_storeInsert (keys_ne_storeRemove hstore) htake
              · have hc' := Except.ok.inj hput
                rw [← hc']
                simp only [mPut, mDelCurrent]
                exact keys_ne_storeInsert (keys_ne_storeRemove hstore) htake
            · have hc' := Except.ok.inj hput
              rw [← hc']
              exact keys_ne_storeInsert hstore htake

/-- Witness for C10: the empty key is rejected, and a concrete successful
put leaves only non-empty keys. -/
theorem c10_put_empty_key_witness :
    mutPut ⟨[], none⟩ none [] [5] = .error "Key must not be empty" ∧
    ∀ e ∈ (mPut (⟨[], none⟩ : MCursor) [1] [2]).store, e.1 ≠ [] :=
  ⟨c10_put_empty_key.1 ⟨[], none⟩ none [5],
    c10_put_empty_key.2 ⟨[], none⟩ none [1] [2] (mPut ⟨[], none⟩ [1] [2])
      (by simp) (by simp) rfl⟩

/-- C3: for an auto-dup-sort table with parameters `from = f`, `to = t`, a
put or delete whose key length lies strictly between `t` and `f` fails with
an error before any mutation (the store is untouched because the operation
aborts without producing a successor state), while every accepted key
shorter than `f` — i.e. shorter than `t` — is stored verbatim, unsplit,
under the key itself. -/
theorem c3_autodupsort_key_length :
    (∀ (c : MCursor) (f t : Nat) (key v : Bytes),
      t < key.length → key.length < f →
      putAutodupsort c f t key v =
        .error "put dupsort table: invalid key length") ∧
    (∀ (c : MCursor) (f t : Nat) (key : Bytes),
      t < key.length → key.length < f →
      deleteAutodupsort c f t key =
        .error "delete from dupsort table: invalid key length") ∧
    (∀ (c : MCursor) (f t : Nat) (key v : Bytes),
      keysSorted c.store → (∀ e ∈ c.store, e.2 ≠ []) →
      key.length < t → t < f →
      ∃ c', putAutodupsort c f t key v = .ok c' ∧
        v ∈ (lookupDups c'.store key).getD []) := by
  refine ⟨?_, ?_, ?_⟩
  · intro c f t key v ht hf
    rw [putAutodupsort, if_pos ⟨by omega, by omega⟩]
  · intro c f t key ht hf
    rw [deleteAutodupsort, if_pos ⟨by omega, by omega⟩]
  · intro c f t key v hsort hne hkt htf
    have hlen : key.length ≠ f := by omega
    rw [putAutodupsort, if_neg (by omega), if_pos hlen]
    cases hlk : lookupDups c.store key with
    | none =>
      refine ⟨mPut c key v, by simp [mPutNoOverwrite, hlk], ?_⟩
      show v ∈ (lookupDups (storeInsert c.store key v) key).getD []
      rw [lookup_storeInsert_self c.store hsort]
      exact self_mem_insertSortedVal v _
    | some vs =>
      have hvs : vs ≠ [] := hne (key, vs) (lookupDups_mem hlk)
      obtain ⟨w, ws, rfl⟩ := List.exists_cons_of_ne_nil hvs
      refine ⟨mPutCurrent { c with pos := some (key, w) } v,
        by simp [mPutNoOverwrite, hlk], ?_⟩
      simp only [mPutCurrent]
      show v ∈ (lookupDups (storeInsert (storeRemove c.store key w) key v)
        key).getD []
      rw [lookup_storeInsert_self _ (storeRemove_keysSorted hsort)]
      exact self_mem_insertSortedVal v _

/-- Witness for C3 at concrete inputs: a 30-byte key is rejected by put and
delete for `from = 60, to = 28`, and a 10-byte key is stored verbatim. -/
theorem c3_autodupsort_key_length_witness :
    putAutodupsort ⟨[], none⟩ 60 28 (List.range 30) [1] =
      .error "put dupsort table: invalid key length" ∧
    deleteAutodupsort ⟨[], none⟩ 60 28 (List.range 30) =
      .error "delete from dupsort table: invalid key length" ∧
    ∃ c', putAutodupsort ⟨[], none⟩ 60 28 (List.range 10) [1] = .ok c' ∧
      [1] ∈ (lookupDups c'.store (List.range 10)).getD [] :=
  ⟨c3_autodupsort_key_length.1 ⟨[], none⟩ 60 28 (List.range 30) [1]
      (by decide) (by decide),
    c3_autodupsort_key_length.2.1 ⟨[], none⟩ 60 28 (List.range 30)
      (by decide) (by decide),
    c3_autodupsort_key_length.2.2 ⟨[], none⟩ 60 28 (List.range 10) [1]
      (by simp [keysSorted]) (by simp) (by decide) (by decide)⟩

theorem two_le_countP {l : List Bytes} {a b : Bytes} (ha : a ∈ l) (hb : b ∈ l)
    (hab : a ≠ b) {p : Bytes → Bool} (hpa : p a = true) (hpb : p b = true) :
    2 ≤ l.countP p := by
  have hfa : a ∈ l.filter p := List.mem_filter.mpr ⟨ha, hpa⟩
  have hfb : b ∈ l.filter p := List.mem_filter.mpr ⟨hb, hpb⟩
  have hsub : ({a, b} : Finset Bytes) ⊆ (l.filter p).toFinset := by
    intro z hz
    simp only [Finset.mem_insert, Finset.mem_singleton] at hz
    rcases hz with rfl | rfl
    · exact List.mem_toFinset.mpr hfa
    · exact List.mem_toFinset.mpr hfb
  calc 2 = ({a, b} : Finset Bytes).card := (Finset.card_pair hab).symm
  _ ≤ (l.filter p).toFinset.card := Finset.card_le_card hsub
  _ ≤ (l.filter p).length := List.toFinset_card_le _
  _ = l.countP p := by rw [List.countP_eq_length_filter]

/-- A byte string above the split point that does not carry the location
prefix sorts strictly above every string extending that prefix. -/
theorem lt_append_of_take_ne {k2 u : Bytes} {n : Nat} (hn : k2.length = n)
    (hle : k2 ≤ u) (hne : u.take n ≠ k2) (v : Bytes) : k2 ++ v < u := by
  have hku : k2 ≠ u := by
    intro he
    apply hne
    rw [← he, List.take_of_length_le (le_of_eq hn)]
  have hlt : k2 < u := lt_of_le_of_ne hle hku
  have hnpre : ¬k2 <+: u := by
    rintro ⟨r, rfl⟩
    exact hne (take_append_of_length hn)
  exact PrefixSetImpl.lt_of_prefix_of_lt hlt hnpre (List.prefix_append k2 v)

/-- Full specification of `put_autodupsort` for a key of the full length
`from`: the call succeeds, the key is split at `to`, and in the stored
duplicate list the freshly written value is the least duplicate above the
location prefix (assuming the engine's invariant that at most one stored
duplicate carries this location prefix). -/
theorem putAutodupsort_full_spec (c : MCursor) (f t : Nat) (key v : Bytes)
    (htf : t < f) (hkey : key.length = f)
    (hsort : keysSorted c.store)
    (hdups : ∀ e ∈ c.store, e.2.Pairwise (· < ·))
    (huniq : ((lookupDups c.store (key.take t)).getD []).countP
        (fun w => decide (w.take (f - t) = key.drop t)) ≤ 1) :
    ∃ (c' : MCursor) (vs' : List Bytes),
      putAutodupsort c f t key v = .ok c' ∧
      keysSorted c'.store ∧
      lookupDups c'.store (key.take t) = some vs' ∧
      vs'.Pairwise (· < ·) ∧ (key.drop t ++ v) ∈ vs' ∧
      (∀ u ∈ vs', key.drop t ≤ u → (key.drop t ++ v) ≤ u) := by
  have hk2len : (key.drop t).length = f - t := by
    simp [hkey]
  have htake_val : (key.drop t ++ v).take (f - t) = key.drop t :=
    take_append_of_length hk2len
  have hbody : putAutodupsort c f t key v =
      (match mGetBothRange c (key.take t) ((key.drop t ++ v).take (f - t)) with
       | (none, c') => .ok (mPut c' (key.take t) (key.drop t ++ v))
       | (some w, c') =>
         if w.take (f - t) = (key.drop t ++ v).take (f - t) then
           if w.length = (key.drop t ++ v).length then
             .ok (mPutCurrent c' (key.drop t ++ v))
           else .ok (mPut (mDelCurrent c') (key.take t) (key.drop t ++ v))
         else .ok (mPut c' (key.take t) (key.drop t ++ v))) := by
    rw [putAutodupsort, if_neg (by omega), if_neg (by omega)]
  cases hlk : lookupDups c.store (key.take t) with
  | none =>
    refine ⟨mPut c (key.take t) (key.drop t ++ v),
      insertSortedVal (key.drop t ++ v) [], ?_, ?_, ?_, ?_, ?_, ?_⟩
    · rw [hbody]
      simp [mGetBothRange, hlk]
    · exact storeInsert_keysSorted c.store hsort
    · show lookupDups (storeInsert c.store (key.take t) (key.drop t ++ v))
        (key.take t) = _
      rw [lookup_storeInsert_self c.store hsort, hlk]
      rfl
    · exact insertSortedVal_pairwise _ [] (by simp)
    · exact self_mem_insertSortedVal _ _
    · intro u hu _
      rcases (mem_insertSortedVal _ [] u).mp hu with rfl | hu
      · exact le_refl _
      · cases hu
  | some vs =>
    have hvs_sorted : vs.Pairwise (· < ·) :=
      hdups (key.take t, vs) (lookupDups_mem hlk)
    have hvs_nodup : vs.Nodup := hvs_sorted.imp ne_of_lt
    rw [hlk] at huniq
    simp only [Option.getD_some] at huniq
    cases hfind : vs.find? (fun w => decide (key.drop t ≤ w)) with
    | none =>
      have hnone : ∀ u ∈ vs, ¬(key.drop t ≤ u) := by
        intro u hu
        have := List.find?_eq_none.mp hfind u hu
        simpa using this
      refine ⟨mPut c (key.take t) (key.drop t ++ v),
        insertSortedVal (key.drop t ++ v) vs, ?_, ?_, ?_, ?_, ?_, ?_⟩
      · rw [hbody]
        simp only [mGetBothRange, hlk, htake_val, hfind]
      · exact storeInsert_keysSorted c.store hsort
      · show lookupDups (storeInsert c.store (key.take t) (key.drop t ++ v))
          (key.take t) = _
        rw [lookup_storeInsert_self c.store hsort, hlk]
        rfl
      · exact insertSortedVal_pairwise _ vs hvs_sorted
      · exact self_mem_insertSortedVal _ _
      · intro u hu hle
        rcases (mem_insertSortedVal _ vs u).mp hu with rfl | hu
        · exact le_refl _
        · exact absurd hle (hnone u hu)
    | some w =>
      have hwvs : w ∈ vs := List.mem_of_find?_eq_some hfind
      have hk2w : key.drop t ≤ w := by
        have := List.find?_some hfind
        simpa using this
      have hwmin : ∀ u ∈ vs, key.drop t ≤ u → w ≤ u :=
        find?_min_sorted hvs_sorted hfind
      by_cases hwpre : w.take (f - t) = key.drop t
      · -- the (unique) duplicate with this location prefix is replaced
        have hstore_facts :
            keysSorted (storeInsert (storeRemove c.store (key.take t) w)
              (key.take t) (key.drop t ++ v)) ∧
            lookupDups (storeInsert (storeRemove c.store (key.take t) w)
              (key.take t) (key.drop t ++ v)) (key.take t) =
              some (insertSortedVal (key.drop t ++ v) (vs.erase w)) ∧
            (insertSortedVal (key.drop t ++ v) (vs.erase w)).Pairwise (· < ·) ∧
            (key.drop t ++ v) ∈ insertSortedVal (key.drop t ++ v) (vs.erase w) ∧
            (∀ u ∈ insertSortedVal (key.drop t ++ v) (vs.erase w),
              key.drop t ≤ u → (key.drop t ++ v) ≤ u) := by
          have herase_sorted : (vs.erase w).Pairwise (· < ·) :=
            List.Pairwise.sublist (List.erase_sublist w vs) hvs_sorted
          refine ⟨storeInsert_keysSorted _ (storeRemove_keysSorted hsort),
            ?_, insertSortedVal_pairwise _ _ herase_sorted,
            self_mem_insertSortedVal _ _, ?_⟩
          · rw [lookup_storeInsert_self _ (storeRemove_keysSorted hsort),
              lookup_storeRemove_getD c.store hsort, hlk]
            rfl
          · intro u hu hle
            rcases (mem_insertSortedVal _ _ u).mp hu with rfl | hu
            · exact le_refl _
            · obtain ⟨hune, huvs⟩ := (List.Nodup.mem_erase_iff hvs_nodup).mp hu
              have hupre : u.take (f - t) ≠ key.drop t := by
                intro hc
                have h2 : 2 ≤ vs.countP
                    (fun x => decide (x.take (f - t) = key.drop t)) :=
                  two_le_countP hwvs huvs (Ne.symm hune)
                    (by simpa using hwpre) (by simpa using hc)
                omega
              exact le_of_lt (lt_append_of_take_ne hk2len hle hupre v)
        obtain ⟨hks, hlu, hpw, hmem, hmin⟩ := hstore_facts
        by_cases hwlen : w.length = (key.drop t ++ v).length
        · refine ⟨mPutCurrent { c with pos := some (key.take t, w) }
            (key.drop t ++ v), insertSortedVal (key.drop t ++ v) (vs.erase w),
            ?_, hks, hlu, hpw, hmem, hmin⟩
          rw [hbody]
          simp only [mGetBothRange, hlk, htake_val, hfind]
          rw [if_pos hwpre, if_pos hwlen]
        · refine ⟨mPut (mDelCurrent { c with pos := some (key.take t, w) })
            (key.take t) (key.drop t ++ v),
            insertSortedVal (key.drop t ++ v) (vs.erase w),
            ?_, hks, hlu, hpw, hmem, hmin⟩
          rw [hbody]
          simp only [mGetBothRange, hlk, htake_val, hfind]
          rw [if_pos hwpre, if_neg hwlen]
      · -- no duplicate carries the prefix: the new value is simply added
        have hnopre : ∀ u ∈ vs, u.take (f - t) ≠ key.drop t := by
          intro u hu hc
          have huk2 : key.drop t ≤ u := by
            calc key.drop t = u.take (f - t) := hc.symm
            _ ≤ u := by
              rcases List.take_prefix (f - t) u with hpre
              exact PrefixSetImpl.prefix_le hpre
          have hwu : w ≤ u := hwmin u hu huk2
          have huw : u < w := by
            have : u.take (f - t) ++ u.drop (f - t) < w := by
              rw [hc]
              exact lt_append_of_take_ne hk2len hk2w hwpre _
            rwa [List.take_append_drop] at this
          exact absurd huw (not_lt_of_le hwu)
        refine ⟨mPut { c with pos := some (key.take t, w) } (key.take t)
          (key.drop t ++ v), insertSortedVal (key.drop t ++ v) vs,
          ?_, ?_, ?_, ?_, ?_, ?_⟩
        · rw [hbody]
          simp only [mGetBothRange, hlk, htake_val, hfind]
          rw [if_neg hwpre]
        · exact storeInsert_keysSorted c.store hsort
        · show lookupDups (storeInsert c.store (key.take t) (key.drop t ++ v))
            (key.take t) = _
          rw [lookup_storeInsert_self c.store hsort, hlk]
          rfl
        · exact insertSortedVal_pairwise _ vs hvs_sorted
        · exact self_mem_insertSortedVal _ _
        · intro u hu hle
          rcases (mem_insertSortedVal _ vs u).mp hu with rfl | hu
          · exact le_refl _
          · exact le_of_lt (lt_append_of_take_ne hk2len hle (hnopre u hu) v)

/-- C2 (amended): for an auto-dup-sort table with `from = f, to = t` and a
key of length exactly `f`, `put` stores `key[..t]` as the on-disk primary
key with `key[t..]` prepended to the value; the split is reversed by
`seek` (which returns the original `f`-byte key with the value) and by the
`auto_dup_sort_from_db` merge used by `first`/`next`/`prev`/`last`/
`current`; `seek_exact`, however, returns the value paired with the
truncated on-disk primary key `key[..t]`, not the original `f`-byte key. -/
theorem c2_autodupsort_roundtrip (c : MCursor) (f t : Nat) (key v : Bytes)
    (ht : 0 < t) (htf : t < f) (hkey : key.length = f)
    (hsort : keysSorted c.store)
    (hdups : ∀ e ∈ c.store, e.2.Pairwise (· < ·))
    (huniq : ((lookupDups c.store (key.take t)).getD []).countP
        (fun w => decide (w.take (f - t) = key.drop t)) ≤ 1) :
    ∃ c', putAutodupsort c f t key v = .ok c' ∧
      (key.drop t ++ v) ∈ (lookupDups c'.store (key.take t)).getD [] ∧
      (seekAutodupsort c' f t key).1 = some (key, v) ∧
      autoDupSortFromDb f t (key.take t) (key.drop t ++ v) = (key, v) ∧
      (seekExactAuto c' f t key).1 = some (key.take t, v) := by
  obtain ⟨c', vs', hstep, hsort', hlu, hpair', hmem, hmin⟩ :=
    putAutodupsort_full_spec c f t key v htf hkey hsort hdups huniq
  have hk2len : (key.drop t).length = f - t := by
    simp [hkey]
  have htake_val : (key.drop t ++ v).take (f - t) = key.drop t :=
    take_append_of_length hk2len
  have hdrop_val : (key.drop t ++ v).drop (f - t) = v :=
    drop_append_of_length hk2len
  have htlen : (key.take t).length = t := by
    rw [List.length_take]
    omega
  have hk2le : key.drop t ≤ key.drop t ++ v :=
    PrefixSetImpl.prefix_le (List.prefix_append _ _)
  have hfind' : vs'.find? (fun w => decide (key.drop t ≤ w)) =
      some (key.drop t ++ v) :=
    find?_eq_some_min hpair' hmem hk2le hmin
  have hgbr_gen : ∀ cc : MCursor, cc.store = c'.store →
      mGetBothRange cc (key.take t) (key.drop t) =
        (some (key.drop t ++ v),
          { cc with pos := some (key.take t, key.drop t ++ v) }) := by
    intro cc hcc
    simp only [mGetBothRange, hcc, hlu, hfind']
  have hmerge : autoDupSortFromDb f t (key.take t) (key.drop t ++ v) =
      (key, v) := by
    rw [autoDupSortFromDb, if_pos htlen, htake_val, hdrop_val,
      List.take_append_drop]
  refine ⟨c', hstep, ?_, ?_, hmerge, ?_⟩
  · rw [hlu]
    exact hmem
  · -- seek re-merges the split
    have hne : ¬(key.isEmpty = true) := by
      simp only [List.isEmpty_iff]
      intro hc
      rw [hc] at hkey
      simp at hkey
      omega
    have hlen_t : key.length > t := by omega
    obtain ⟨w0, ws0, hvs'⟩ :=
      List.exists_cons_of_ne_nil (List.ne_nil_of_mem hmem)
    have hsr : mSetRange c' (key.take t) =
        (some (key.take t, w0), { c' with pos := some (key.take t, w0) }) := by
      simp only [mSetRange, storeFind_of_lookup hsort' hlu, hvs',
        List.head?_cons]
    simp only [seekAutodupsort, if_neg hne, if_pos hlen_t, hsr, if_true]
    rw [hgbr_gen { c' with pos := some (key.take t, w0) } rfl]
    simp only [if_pos htlen]
    rw [htake_val, hdrop_val, List.take_append_drop]
  · -- seek_exact returns the truncated primary key
    simp only [seekExactAuto, hgbr_gen c' rfl]
    rw [if_pos htake_val.symm, hdrop_val]

/-- Witness for C2 at a concrete input (`from = 60, to = 28`, the
`PlainState` configuration), from the empty store. -/
theorem c2_autodupsort_roundtrip_witness :
    ∃ c', putAutodupsort ⟨[], none⟩ 60 28 (List.range 60) [9, 9] = .ok c' ∧
      ((List.range 60).drop 28 ++ [9, 9]) ∈
        (lookupDups c'.store ((List.range 60).take 28)).getD [] ∧
      (seekAutodupsort c' 60 28 (List.range 60)).1 =
        some (List.range 60, [9, 9]) ∧
      autoDupSortFromDb 60 28 ((List.range 60).take 28)
        ((List.range 60).drop 28 ++ [9, 9]) = (List.range 60, [9, 9]) ∧
      (seekExactAuto c' 60 28 (List.range 60)).1 =
        some ((List.range 60).take 28, [9, 9]) :=
  c2_autodupsort_roundtrip ⟨[], none⟩ 60 28 (List.range 60) [9, 9]
    (by decide) (by decide) (by decide) (by simp [keysSorted]) (by simp)
    (by decide)

/-- C2 counterexample: after `put` of a 60-byte key on the `PlainState`
configuration, `seek_exact` of that key returns the 28-byte on-disk
primary key with the value — not the original 60-byte key as the claim
states. -/
theorem c2_seek_exact_counterexample :
    ((putAutodupsort ⟨[], none⟩ 60 28 (List.range 60) [9, 9]).toOption.map
        (fun c' => (seekExactAuto c' 60 28 (List.range 60)).1)) =
      some (some ((List.range 60).take 28, [9, 9])) ∧
    ∀ c' : MCursor,
      putAutodupsort ⟨[], none⟩ 60 28 (List.range 60) [9, 9] = .ok c' →
      (seekExactAuto c' 60 28 (List.range 60)).1 ≠
        some (List.range 60, [9, 9]) := by
  constructor
  · decide
  · intro c' hc'
    have h1 : ((putAutodupsort ⟨[], none⟩ 60 28
        (List.range 60) [9, 9]).toOption.map
        (fun x => (seekExactAuto x 60 28 (List.range 60)).1)) =
        some (some ((List.range 60).take 28, [9, 9])) := by decide
    rw [hc'] at h1
    simp only [Except.toOption, Option.map_some'] at h1
    have h2 := Option.some.inj h1
    rw [h2]
    decide

end MdbxProofs

/-! ## execution/evm/instructions/call.rs : `do_call_async` (claim C5)

The `do_call_async!` macro is translated below.  The `Gasometer` and the
memory helpers live in EVM modules absent from `src/`, so they are
modelled from the spec (§4.5): the gasometer meters `gas_left` with
checked subtraction failing `OutOfGas`, an unchecked subtraction for
sub-call consumption, and a refund crediting gas back to the caller; every
meter operation is also recorded in an event ledger so that theorems can
speak about what was charged. -/

namespace Evm

/-- `Revision`, ordered Frontier < … < Shanghai. -/
inductive Revision where
  | Frontier | Homestead | Tangerine | Spurious | Byzantium
  | Constantinople | Petersburg | Istanbul | Berlin | London | Shanghai
  deriving DecidableEq, Repr

/-- Activation index of a revision. -/
def Revision.ord : Revision → Nat
  | .Frontier => 0
  | .Homestead => 1
  | .Tangerine => 2
  | .Spurious => 3
  | .Byzantium => 4
  | .Constantinople => 5
  | .Petersburg => 6
  | .Istanbul => 7
  | .Berlin => 8
  | .London => 9
  | .Shanghai => 10

/-- `CallKind` (the `STATICCALL` case is `Call` plus the static flag). -/
inductive CallKind where
  | Call | DelegateCall | CallCode
  deriving DecidableEq, Repr

/-- EIP-2929 account access status. -/
inductive AccessStatus where
  | Cold | Warm
  deriving DecidableEq, Repr

/-- The status codes observable in `do_call_async`. -/
inductive StatusCode where
  | Success | Failure | Revert | OutOfGas | StaticModeViolation
  deriving DecidableEq, Repr

/-- `i64::MAX`, the initial `msg.gas`. -/
def I64MAX : Nat := 9223372036854775807

/-- Modelled from the spec: EIP-2929 `ADDITIONAL_COLD_ACCOUNT_ACCESS_COST`
(`instructions/properties.rs` is absent from src/): 2600 cold minus 100
warm. -/
def ADDITIONAL_COLD_ACCOUNT_ACCESS_COST : Nat := 2500

/-- Gas meter events, recorded for the theorems. -/
inductive GasEvent where
  | subtract (n : Nat) | refund (n : Nat) | subtractUnchecked (n : Nat)
  deriving DecidableEq, Repr

/-- Modelled from the spec: the interpreter `Gasometer`
(`execution/evm/state.rs` is absent from src/). -/
structure Gasometer where
  gas_left : Int
  events : List GasEvent
  deriving DecidableEq, Repr

/-- Checked subtraction: `OutOfGas` when the meter runs dry. -/
def Gasometer.subtract (g : Gasometer) (n : Nat) : Except StatusCode Gasometer :=
  if g.gas_left - n < 0 then .error .OutOfGas
  else .ok ⟨g.gas_left - n, g.events ++ [.subtract n]⟩

/-- Refund: credit gas back to the caller's meter. -/
def Gasometer.refund (g : Gasometer) (n : Nat) : Gasometer :=
  ⟨g.gas_left + n, g.events ++ [.refund n]⟩

/-- Unchecked subtraction (the sub-call consumed at most its own gas). -/
def Gasometer.subtractUnchecked (g : Gasometer) (n : Nat) : Gasometer :=
  ⟨g.gas_left - n, g.events ++ [.subtractUnchecked n]⟩

/-- The EVM `Message` built by `do_call_async`. -/
structure Message where
  kind : CallKind
  is_static : Bool
  depth : Nat
  recipient : Nat
  code_address : Nat
  sender : Nat
  gas : Nat
  value : Nat
  input_data : Bytes
  deriving DecidableEq, Repr

/-- The `Output` a sub-call resumes with. -/
structure Output where
  status_code : StatusCode
  gas_left : Nat
  output_data : Bytes
  deriving DecidableEq, Repr

/-- The host oracle consumed by the instruction (spec §4.5: host reads are
served by the enclosing driver). -/
structure Host where
  access_account : Nat → AccessStatus
  account_exists : Nat → Bool
  get_balance : Nat → Nat
  call : Message → Output

/-- The part of `ExecutionState` touched by `do_call_async`. -/
structure EState where
  stack : List Nat
  memory : List Nat
  return_data : Bytes
  msg_depth : Nat
  msg_is_static : Bool
  msg_recipient : Nat
  msg_sender : Nat
  msg_value : Nat

/-- `Stack::pop` (the height was checked by `check_requirements`). -/
def popSt (s : List Nat) : Nat × List Nat := (s.headD 0, s.tail)

/-- Modelled from the spec: EVM memory cost of `w` 32-byte words. -/
def memoryCostWords (w : Nat) : Nat := 3 * w + w * w / 512

/-- Modelled from the spec: `memory::get_memory_region`
(`instructions/memory.rs` is absent from src/): a zero size yields no
region; otherwise memory grows zero-filled to a word boundary covering the
region, charging the expansion gas, with oversized offsets failing
`OutOfGas`. -/
def getMemoryRegion (mem : List Nat) (g : Gasometer) (offset size : Nat) :
    Except StatusCode (Option (Nat × Nat) × List Nat × Gasometer) :=
  if size = 0 then .ok (none, mem, g)
  else if offset > 2 ^ 32 ∨ size > 2 ^ 32 then .error .OutOfGas
  else
    let newSize := (max mem.length (offset + size) + 31) / 32 * 32
    let cost := memoryCostWords (newSize / 32) - memoryCostWords (mem.length / 32)
    match g.subtract cost with
    | .error e => .error e
    | .ok g' =>
      .ok (some (offset, size), mem ++ List.replicate (newSize - mem.length) 0, g')

/-- `memory[offset..offset + copy_size].copy_from_slice(..)`. -/
def writeMem (mem : List Nat) (offset : Nat) (data : Bytes) : List Nat :=
  mem.take offset ++ data ++ mem.drop (offset + data.length)

/-- The `msg.gas` capping lines of `do_call_async`: clamp the requested
gas to `i64::MAX`, then apply the EIP-150 63/64 cap from Tangerine on, or
the strict pre-Tangerine check. -/
def callGasCap (rev : Revision) (gas : Nat) (g : Gasometer) :
    Except StatusCode Nat :=
  let base := if gas < I64MAX then gas else I64MAX
  if Revision.Tangerine.ord ≤ rev.ord then
    .ok (min base (g.gas_left.toNat - g.gas_left.toNat / 64))
  else if g.gas_left < base then .error .OutOfGas
  else .ok base

/-- `do_call_async!` from `execution/evm/instructions/call.rs`, for kind
`CALL`/`CALLCODE`/`DELEGATECALL`/`STATICCALL` (`staticcall` is the
`op == STATICCALL` flag).  Returns the new state, the new meter, and the
sub-call (message and output) if one was performed. -/
def doCallAsync (host : Host) (rev : Revision) (kind : CallKind)
    (staticcall : Bool) (st : EState) (g : Gasometer) :
    Except StatusCode (EState × Gasometer × Option (Message × Output)) :=
  let gas := st.stack.headD 0
  let s1 := st.stack.tail
  let dst := s1.headD 0 % 2 ^ 160
  let s2 := s1.tail
  let value :=
    if staticcall = true ∨ kind = CallKind.DelegateCall then 0 else s2.headD 0
  let s3 :=
    if staticcall = true ∨ kind = CallKind.DelegateCall then s2 else s2.tail
  let input_offset := s3.headD 0
  let s4 := s3.tail
  let input_size := s4.headD 0
  let s5 := s4.tail
  let output_offset := s5.headD 0
  let s6 := s5.tail
  let output_size := s6.headD 0
  let s7 := s6.tail
  let s8 := 0 :: s7
  let g1res :=
    if Revision.Berlin.ord ≤ rev.ord ∧ host.access_account dst = .Cold then
      g.subtract ADDITIONAL_COLD_ACCOUNT_ACCESS_COST
    else .ok g
  match g1res with
  | .error e => .error e
  | .ok g1 =>
    match getMemoryRegion st.memory g1 input_offset input_size with
    | .error e => .error e
    | .ok (input_region, mem1, g2) =>
      match getMemoryRegion mem1 g2 output_offset output_size with
      | .error e => .error e
      | .ok (output_region, mem2, g3) =>
        let msg : Message :=
          { kind := kind
            is_static := staticcall || st.msg_is_static
            depth := st.msg_depth + 1
            recipient := if kind = CallKind.Call then dst else st.msg_recipient
            code_address := dst
            sender :=
              if kind = CallKind.DelegateCall then st.msg_sender
              else st.msg_recipient
            gas := I64MAX
            value := if kind = CallKind.DelegateCall then st.msg_value else value
            input_data :=
              match input_region with
              | some os => (mem2.drop os.1).take os.2
              | none => [] }
        if kind = CallKind.Call ∧ value ≠ 0 ∧ st.msg_is_static = true then
          .error .StaticModeViolation
        else
          let cost :=
            (if value ≠ 0 then 9000 else 0) +
              (if kind = CallKind.Call ∧
                  (value ≠ 0 ∨ rev.ord < Revision.Spurious.ord) ∧
                  host.account_exists dst = false then 25000 else 0)
          match g3.subtract cost with
          | .error e => .error e
          | .ok g4 =>
            match callGasCap rev gas g4 with
            | .error e => .error e
            | .ok base =>
              let msgGas := if value ≠ 0 then base + 2300 else base
              let g5 := if value ≠ 0 then g4.refund 2300 else g4
              let st1 :=
                { st with stack := s8, memory := mem2, return_data := [] }
              if st.msg_depth < 1024 ∧
                  ¬(value ≠ 0 ∧ host.get_balance st.msg_recipient < value) then
                let result := host.call { msg with gas := msgGas }
                let st2 :=
                  { st1 with
                    return_data := result.output_data
                    stack :=
                      (if result.status_code = StatusCode.Success then 1
                       else 0) :: s7
                    memory :=
                      match output_region with
                      | some os =>
                        let copy_size := min os.2 result.output_data.length
                        if 0 < copy_size then
                          writeMem mem2 os.1 (result.output_data.take copy_size)
                        else mem2
                      | none => mem2 }
                let gas_used := msgGas - result.gas_left
                .ok (st2, g5.subtractUnchecked gas_used,
                  some ({ msg with gas := msgGas }, result))
              else
                .ok (st1, g5, none)

end Evm

section EvmCallProofs

open Evm

theorem gasometer_subtract_events {g g' : Gasometer} {n : Nat}
    (h : g.subtract n = .ok g') : g'.events = g.events ++ [.subtract n] := by
  rw [Gasometer.subtract] at h
  split at h
  · cases h
  · obtain ⟨⟩ := Except.ok.inj h
    rfl

/-- C5: for a `CALL` executed with non-zero value (the third stack
operand): the charged cost is `9000` plus the optional `25000`
new-account surcharge; the meter is credited the `2300` stipend which is
simultaneously added to the child message's gas; the sub-call is performed
exactly when the caller's depth is below 1024 (child depth =
caller + 1 ≤ 1024) and the caller's balance covers the value; when the
balance is short, no child executes, the return-data buffer is left empty
and `0` remains on the stack as the call result. -/
theorem c5_call_value_semantics (host : Host) (rev : Revision) (st : EState)
    (g : Gasometer) (st' : EState) (g' : Gasometer)
    (child : Option (Message × Output))
    (hok : doCallAsync host rev .Call false st g = .ok (st', g', child))
    (hval : st.stack.tail.tail.headD 0 ≠ 0) :
    (∃ extra, (extra = 0 ∨ extra = 25000) ∧
      GasEvent.subtract (9000 + extra) ∈ g'.events) ∧
    GasEvent.refund 2300 ∈ g'.events ∧
    (∀ m out, child = some (m, out) →
      m.depth = st.msg_depth + 1 ∧ st.msg_depth < 1024 ∧
      ∃ base, m.gas = base + 2300) ∧
    (child = none ↔ (1024 ≤ st.msg_depth ∨
      host.get_balance st.msg_recipient < st.stack.tail.tail.headD 0)) ∧
    (host.get_balance st.msg_recipient < st.stack.tail.tail.headD 0 →
      child = none ∧ st'.return_data = [] ∧ st'.stack.headD 0 = 0) := by
  have hns : ¬(false = true ∨ CallKind.Call = CallKind.DelegateCall) := by
    simp
  simp only [doCallAsync] at hok
  rw [if_neg hns, if_neg hns] at hok
  split at hok
  · cases hok
  rename_i g1 hg1
  split at hok
  · cases hok
  rename_i input_region mem1 g2 hreg1
  split at hok
  · cases hok
  rename_i output_region mem2 g3 hreg2
  split at hok
  · cases hok
  rename_i hstatic
  split at hok
  · cases hok
  rename_i g4 hg4
  obtain ⟨extra, hextra, hXev⟩ : ∃ extra, (extra = 0 ∨ extra = 25000) ∧
      g4.events = g3.events ++ [GasEvent.subtract (9000 + extra)] := by
    refine ⟨_, ?_, gasometer_subtract_events hg4⟩
    split <;> simp
  split at hok
  · cases hok
  rename_i base hbase
  split at hok
  · -- the sub-call is performed
    rename_i hguard
    obtain ⟨hdepth, hbal⟩ := hguard
    obtain ⟨⟩ := Except.ok.inj hok
    have hbal' : ¬(host.get_balance st.msg_recipient <
        st.stack.tail.tail.headD 0) := fun hc => hbal ⟨hval, hc⟩
    refine ⟨⟨extra, hextra, ?_⟩, ?_, ?_, ?_, ?_⟩
    · simp only [Gasometer.subtractUnchecked, Gasometer.refund, hXev]
      simp [List.mem_append]
    · simp only [Gasometer.subtractUnchecked, Gasometer.refund]
      simp [List.mem_append]
    · intro m out hm
      obtain ⟨⟩ := Option.some.inj hm
      exact ⟨rfl, hdepth, base, rfl⟩
    · constructor
      · intro h
        exact Option.noConfusion h
      · rintro (h | h)
        · exact absurd hdepth (by omega)
        · exact absurd h hbal'
    · intro hc
      exact absurd hc hbal'
  · -- the sub-call is skipped
    rename_i hguard
    obtain ⟨⟩ := Except.ok.inj hok
    rw [not_and_or] at hguard
    have hcond : 1024 ≤ st.msg_depth ∨
        host.get_balance st.msg_recipient < st.stack.tail.tail.headD 0 := by
      rcases hguard with h | h
      · exact Or.inl (by omega)
      · rw [not_not] at h
        exact Or.inr h.2
    refine ⟨⟨extra, hextra, ?_⟩, ?_, ?_, ?_, ?_⟩
    · simp only [Gasometer.refund, hXev]
      simp [List.mem_append]
    · simp only [Gasometer.refund]
      simp [List.mem_append]
    · intro m out hm
      cases hm
    · simpa using hcond
    · intro _
      exact ⟨rfl, rfl, rfl⟩
/-- Concrete host for the C5 witness: warm accounts that exist, balance
100, and sub-calls that succeed returning no data. -/
def c5host : Host :=
  { access_account := fun _ => .Warm
    account_exists := fun _ => true
    get_balance := fun _ => 100
    call := fun _ => { status_code := .Success, gas_left := 0, output_data := [] } }

/-- Concrete caller state for the C5 witness: CALL with gas 50000 to
address 7 transferring value 5, zero-sized IO regions. -/
def c5st : EState :=
  { stack := [50000, 7, 5, 0, 0, 0, 0], memory := [], return_data := []
    msg_depth := 0, msg_is_static := false, msg_recipient := 1
    msg_sender := 2, msg_value := 0 }

/-- Concrete gas meter for the C5 witness. -/
def c5g : Gasometer := ⟨100000, []⟩

/-- The state `doCallAsync` produces on the C5 witness input. -/
def c5stOut : EState :=
  { stack := [1], memory := [], return_data := []
    msg_depth := 0, msg_is_static := false, msg_recipient := 1
    msg_sender := 2, msg_value := 0 }

/-- The meter `doCallAsync` produces on the C5 witness input: 9000
charged, the 2300 stipend refunded, and the child consumption settled. -/
def c5gOut : Gasometer :=
  ⟨41000, [.subtract 9000, .refund 2300, .subtractUnchecked 52300]⟩

/-- The sub-call `doCallAsync` performs on the C5 witness input. -/
def c5child : Option (Message × Output) :=
  some ({ kind := .Call, is_static := false, depth := 1, recipient := 7
          code_address := 7, sender := 1, gas := 52300, value := 5
          input_data := [] },
        { status_code := .Success, gas_left := 0, output_data := [] })

/-- Witness for C5 at the concrete input above. -/
theorem c5_call_value_semantics_witness :
    (∃ extra, (extra = 0 ∨ extra = 25000) ∧
      GasEvent.subtract (9000 + extra) ∈ c5gOut.events) ∧
    GasEvent.refund 2300 ∈ c5gOut.events ∧
    (∀ m out, c5child = some (m, out) →
      m.depth = c5st.msg_depth + 1 ∧ c5st.msg_depth < 1024 ∧
      ∃ base, m.gas = base + 2300) ∧
    (c5child = none ↔ (1024 ≤ c5st.msg_depth ∨
      c5host.get_balance c5st.msg_recipient < c5st.stack.tail.tail.headD 0)) ∧
    (c5host.get_balance c5st.msg_recipient < c5st.stack.tail.tail.headD 0 →
      c5child = none ∧ c5stOut.return_data = [] ∧ c5stOut.stack.headD 0 = 0) :=
  c5_call_value_semantics c5host .Berlin c5st c5g c5stOut c5gOut c5child rfl
    (by decide)

end EvmCallProofs

/-! ## C1: the commitment engine's `HexPatriciaHashed::fold`
(`commitment/mod.rs`).  The keccak-based helpers `compute_cell_hash` and
`Cell::compute_hash_len` are taken as parameters (oracles): in `fold` their
results feed only the row hasher whose output the unfinished branch case
discards, and the grid cells they may rewrite. -/

namespace Commitment

/-- `Cell` of `commitment/mod.rs`, with keys and hashes as byte lists. -/
structure Cell where
  h : Option Bytes
  apk : Option Bytes
  spk : Option Bytes
  down_hashed_key : Bytes
  extension : Bytes
  nonce : Nat
  balance : Nat
  code_hash : Bytes
  storage : Option Nat

/-- `Cell::default()`. -/
def cellDefault : Cell := ⟨none, none, none, [], [], 0, 0, [], none⟩

/-- A position in the cell grid. -/
structure CellPosition where
  row : Nat
  col : Nat

/-- `CellGrid`: the root cell plus the 128 x 16 grid. -/
structure CellGrid where
  root : Cell
  grid : Nat → Nat → Cell

/-- `CellGrid::default()`. -/
def gridDefault : CellGrid := ⟨cellDefault, fun _ _ => cellDefault⟩

/-- `CellGrid::cell_mut`: `none` addresses the root cell. -/
def CellGrid.cellAt (g : CellGrid) (p : Option CellPosition) : Cell :=
  match p with
  | some q => g.grid q.row q.col
  | none => g.root

/-- Writing a cell back through `cell_mut`. -/
def CellGrid.setCell (g : CellGrid) (p : Option CellPosition) (c : Cell) :
    CellGrid :=
  match p with
  | some q =>
    { g with grid := fun r co => if r = q.row ∧ co = q.col then c else g.grid r co }
  | none => { g with root := c }

/-- `CellGrid::fill_from_lower_cell`. -/
def CellGrid.fillFromLowerCell (g : CellGrid) (cellPos : Option CellPosition)
    (lowPos : CellPosition) (lowDepth : Nat) (preExtension : Bytes)
    (nibble : Nat) : CellGrid :=
  let low := g.grid lowPos.row lowPos.col
  let c0 := g.cellAt cellPos
  let c1 :=
    if low.apk.isSome ∨ lowDepth < 64 then { c0 with apk := low.apk } else c0
  let c2 :=
    if low.apk.isSome then
      { c1 with balance := low.balance, nonce := low.nonce
                code_hash := low.code_hash }
    else c1
  let c3 := { c2 with spk := low.spk }
  let c4 := if low.spk.isSome then { c3 with storage := low.storage } else c3
  let c5 :=
    if low.h.isSome then
      if (low.apk.isNone ∧ lowDepth < 64) ∨ (low.spk.isNone ∧ 64 < lowDepth) then
        { c4 with extension := preExtension ++ nibble :: low.extension }
      else { c4 with extension := low.extension }
    else c4
  g.setCell cellPos { c5 with h := low.h }

/-- `u16::trailing_zeros`, for a 16-bit bitmap. -/
def trailingZeros16 (n : Nat) : Nat :=
  ((List.range 16).filter (fun i => n.testBit i)).headD 16

/-- The set bits of a 16-bit bitmap, lowest first: the iteration order of
the `while bitset != 0` loops of `fold`. -/
def setBits16 (n : Nat) : List Nat :=
  (List.range 16).filter (fun i => n.testBit i)

/-- `has_term`: trailing terminator nibble 16. -/
def hasTerm (s : Bytes) : Bool := s.getLast? = some 16

/-- `make_compact_zero_byte`, returning
`(compact_zero_byte, key_pos, key_len)`. -/
def makeCompactZeroByte (key : Bytes) : Nat × Nat × Nat :=
  let czb0 := if hasTerm key then 0x20 else 0
  let key_len := if hasTerm key then key.length - 1 else key.length
  let first_nibble := key.headD 0
  if key_len % 2 = 1 then (czb0 ||| (0x10 ||| first_nibble), 1, key_len)
  else (czb0, 0, key_len)

/-- `buf[i] = v` with the bounds check: `none` models the Rust panic. -/
def listSet (l : List Nat) (i v : Nat) : Option (List Nat) :=
  if i < l.length then some (l.take i ++ v :: l.drop (i + 1)) else none

/-- The `while key_index < key_len` loop of `hex_to_compact`, fuelled by
the remaining iterations; out-of-bounds indexing is `none` (Rust panics). -/
def h2cLoop : Nat → Bytes → Nat → Nat → Nat → Bytes → Option Bytes
  | 0, _, _, _, _, _ => none
  | fuel + 1, key, key_len, key_index, buf_index, buf =>
    if key_index < key_len then
      let ki := key_index + 2
      let bi := buf_index + 1
      match
        (if ki = key_len - 1 then
          match buf.get? bi with
          | some b => listSet buf bi (b &&& 0x0f)
          | none => none
        else
          match key.get? (ki + 1) with
          | some k => listSet buf bi k
          | none => none) with
      | none => none
      | some buf1 =>
        match key.get? ki, buf1.get? bi with
        | some k, some b => match listSet buf1 bi (b ||| (k <<< 4) % 256) with
          | none => none
          | some buf2 => h2cLoop fuel key key_len ki bi buf2
        | _, _ => none
    else some buf

/-- `hex_to_compact` (note: the loop walks `&key[..key_pos]`, the
truncated key). -/
def hexToCompact (key : Bytes) : Option Bytes :=
  let r := makeCompactZeroByte key
  let zero_byte := r.1
  let key_pos := r.2.1
  let key_len0 := r.2.2
  let buf_len := key_len0 / 2 + 1
  let buf := zero_byte :: List.replicate (buf_len - 1) 0
  let key1 := key.take key_pos
  let key_len1 := if hasTerm key1 then key1.length - 1 else key1.length
  h2cLoop (key1.length + 1) key1 key_len1 0 1 buf

/-- The `HexPatriciaHashed` fields read or written by `fold`; the per-row
arrays are maps from row index. -/
structure Hph where
  grid : CellGrid
  active_rows : Nat
  current_key : Bytes
  depths : Nat → Nat
  root_checked : Bool
  root_mod : Bool
  root_del : Bool
  before_bitmap : Nat → Nat
  mod_bitmap : Nat → Nat
  del_bitmap : Nat → Nat

/-- `HexPatriciaHashed::fold` (`commitment/mod.rs` lines 532-784).
`hashO` stands for `compute_cell_hash` (hash bytes plus the possibly
rewritten grid) and `lenO` for `Cell::compute_hash_len`; both only feed
the discarded row hasher and the grid.  `none` models a panic: the
`assert_ne!(active_rows, 0)` or an out-of-bounds index.  Returns the new
state with `(branch_data, update_key)`. -/
def fold (hashO : CellGrid → Option CellPosition → Nat → Bytes × CellGrid)
    (lenO : Cell → Nat → Nat) (s : Hph) :
    Option (Hph × Option Bytes × Bytes) :=
  match hexToCompact s.current_key with
  | none => none
  | some update_key =>
  if s.active_rows = 0 then none
  else
    let row := s.active_rows - 1
    let colInfo : Option (Option CellPosition × Nat × Nat) :=
      if s.active_rows = 1 then some (none, 0, 0)
      else
        let up_depth := s.depths (s.active_rows - 2)
        if up_depth = 0 then none
        else
          match s.current_key.get? (up_depth - 1) with
          | none => none
          | some col => some (some ⟨row - 1, col⟩, col, up_depth)
    match colInfo with
    | none => none
    | some (up_cell, col, up_depth) =>
      let depth := s.depths row
      let bitmap := (s.before_bitmap row ||| s.mod_bitmap row) ^^^ s.del_bitmap row
      let parts_count := Trie.popcount16 bitmap
      if parts_count = 0 then
        let s1 :=
          if s.del_bitmap row ≠ 0 then
            if row = 0 then { s with root_del := true }
            else if up_depth ≠ 64 then
              { s with del_bitmap := fun r =>
                  if r = row - 1 then s.del_bitmap (row - 1) ||| (1 <<< col)
                  else s.del_bitmap r }
            else s
          else s
        let c := s1.grid.cellAt up_cell
        let c' :=
          { c with h := none, apk := none, spk := none, extension := []
                   down_hashed_key := ([] : Bytes) }
        let s2 := { s1 with grid := s1.grid.setCell up_cell c' }
        let branch_data :=
          if 1 < Trie.popcount16 (s.before_bitmap row) then some ([] : Bytes)
          else none
        let s3 :=
          { s2 with active_rows := s.active_rows - 1
                    current_key :=
                      if 0 < up_depth then s.current_key.take (up_depth - 1)
                      else s.current_key }
        some (s3, branch_data, update_key)
      else if parts_count = 1 then
        let s1 :=
          if s.mod_bitmap row ≠ 0 ∨ s.del_bitmap row ≠ 0 then
            if row = 0 then { s with root_mod := true }
            else
              { s with
                mod_bitmap := fun r =>
                  if r = row - 1 then s.mod_bitmap (row - 1) ||| (1 <<< col)
                  else s.mod_bitmap r
                del_bitmap := fun r =>
                  if r = row - 1 then
                    s.del_bitmap (row - 1) &&& (65535 ^^^ (1 <<< col))
                  else s.del_bitmap r }
          else s
        let nibble := trailingZeros16 bitmap
        let cUp := s1.grid.cellAt up_cell
        let g1 := s1.grid.setCell up_cell { cUp with extension := [] }
        let g2 := g1.fillFromLowerCell up_cell ⟨row, nibble⟩ depth
          (s.current_key.drop up_depth) nibble
        let branch_data :=
          if 1 < Trie.popcount16 (s.before_bitmap row) then some ([] : Bytes)
          else none
        let s2 :=
          { s1 with grid := g2
                    active_rows := s.active_rows - 1
                    current_key :=
                      if 0 < up_depth then s.current_key.take (up_depth - 1)
                      else [] }
        some (s2, branch_data, update_key)
      else
        let s1 :=
          if s.mod_bitmap row ≠ 0 ∨ s.del_bitmap row ≠ 0 then
            if row = 0 then { s with root_mod := true }
            else
              { s with
                mod_bitmap := fun r =>
                  if r = row - 1 then s.mod_bitmap (row - 1) ||| (1 <<< col)
                  else s.mod_bitmap r
                del_bitmap := fun r =>
                  if r = row - 1 then
                    s.del_bitmap (row - 1) &&& (65535 ^^^ (1 <<< col))
                  else s.del_bitmap r }
          else s
        let nibbles := setBits16 bitmap
        let total_branch_len := 17 - parts_count +
          (nibbles.map (fun nb =>
            lenO (s1.grid.cellAt (some ⟨row, nb⟩)) depth)).sum
        let zeroes := (parts_count + 1) / 2
        let branch_data : Bytes :=
          [bitmap / 256 % 256, bitmap % 256] ++ List.replicate zeroes 0
        let g3 := nibbles.foldl
          (fun g nb => (hashO g (some ⟨row, nb⟩) depth).2) s1.grid
        let _ := total_branch_len
        some ({ s1 with grid := g3 }, some branch_data, update_key)

/-- The effective-cell bitmap as the SPEC words it:
`(before | mod) \ del`, a set difference. -/
def effectiveBitmapSpec (bef mo del : Nat) : Nat :=
  (bef ||| mo) &&& (65535 ^^^ del)

/-- Failing input for C1, part 1: a single active row whose effective
bitmap has two cells (`before = 0b11`, nothing modified or deleted). -/
def c1stateA : Hph :=
  { grid := gridDefault, active_rows := 1, current_key := []
    depths := fun _ => 0, root_checked := false, root_mod := false
    root_del := false
    before_bitmap := fun r => if r = 0 then 3 else 0
    mod_bitmap := fun _ => 0, del_bitmap := fun _ => 0 }

/-- Failing input for C1, part 2: a single active row with
`before = mod = 0` and `del = 0b1` (a deletion bit outside
`before | mod`, as `fold` itself produces on the parent row when a child
row fully collapses). -/
def c1stateB : Hph :=
  { grid := gridDefault, active_rows := 1, current_key := []
    depths := fun _ => 0, root_checked := false, root_mod := false
    root_del := false
    before_bitmap := fun _ => 0
    mod_bitmap := fun _ => 0
    del_bitmap := fun r => if r = 0 then 1 else 0 }

end Commitment

section CommitmentProofs

open Commitment

/-- C1: two divergences of `HexPatriciaHashed::fold` from the claim, for
every choice of the hashing oracles.  (1) On a row with two effective
cells (`c1stateA`) the code emits the bitmap-and-flags prefix of a branch
update but does NOT close the row: `active_rows` and `current_key` are
left unchanged (the row-closing tail of the branch case is commented
out), so the row never becomes a branch of its parent.  (2) The code
computes the effective bitmap as `(before | mod) ^ del`, an XOR, not the
claimed set difference: on `c1stateB` (`before = mod = 0`, `del = 1`) the
spec's effective set is empty (0 cells: the row should collapse and the
deletion propagate, i.e. `root_del`), but the code counts 1 effective
cell and takes the leaf/extension path, setting `root_mod` and leaving
`root_del` false. -/
theorem c1_fold_code_bug
    (hashO : CellGrid → Option CellPosition → Nat → Bytes × CellGrid)
    (lenO : Cell → Nat → Nat) :
    ((fold hashO lenO c1stateA).map
        (fun r => (r.1.active_rows, r.1.current_key, r.2.1)) =
      some (c1stateA.active_rows, c1stateA.current_key, some [0, 3, 0]) ∧
      2 ≤ Trie.popcount16
        ((c1stateA.before_bitmap 0 ||| c1stateA.mod_bitmap 0) ^^^
          c1stateA.del_bitmap 0)) ∧
    ((fold hashO lenO c1stateB).map
        (fun r => (r.1.root_mod, r.1.root_del, r.1.active_rows)) =
      some (true, false, 0) ∧
      Trie.popcount16
        ((c1stateB.before_bitmap 0 ||| c1stateB.mod_bitmap 0) ^^^
          c1stateB.del_bitmap 0) = 1 ∧
      Trie.popcount16 (effectiveBitmapSpec (c1stateB.before_bitmap 0)
        (c1stateB.mod_bitmap 0) (c1stateB.del_bitmap 0)) = 0) :=
  ⟨⟨rfl, by decide⟩, rfl, by decide, by decide⟩

end CommitmentProofs

/-! ## C4: `Blockchain::insert_block` (`consensus/blockchain.rs`).  The
driver's database effects (the generator's yields) are recorded as an
event trace; reads are served by oracle fields of `ChainEnv`.
`ExecutionProcessor::execute_and_write_block` (`execution/processor.rs`,
absent from src/) has its result discarded by `execute_block`
(`let _ = ...`), so only its state effects remain, recorded as an
`executedTxs` event. -/

namespace Chain

/-- `ValidationError`, keeping the `WrongStateRoot` shape used by
`execute_block` and collapsing the remaining variants to a code. -/
inductive VErr where
  | wrongStateRoot (expected got : Nat)
  | other (code : Nat)
  deriving DecidableEq, Repr

/-- The header fields of a block that `insert_block` reads, with hashes
as numbers. -/
structure Blk where
  hash : Nat
  number : Nat
  parentHash : Nat
  state_root : Nat
  deriving DecidableEq, Repr

/-- The database effects `insert_block` performs (the generator's
yields, plus one `executedTxs` marker per `execute_and_write_block`
run). -/
inductive ChainEvent where
  | executedTxs (hash : Nat)
  | unwindBlock (number : Nat)
  | insertedToDb (hash : Nat)
  | decanonize (number : Nat)
  | canonize (number : Nat) (hash : Nat)
  deriving DecidableEq, Repr

/-- Oracles for the reads `insert_block` makes of the consensus engine
and the database. -/
structure ChainEnv where
  validate_block_header : Blk → Option VErr
  pre_validate_block : Blk → Option VErr
  canonical_ancestor : Blk → Except VErr Nat
  current_canonical_block : Nat
  intermediate_chain : Nat → Nat → Nat → List Blk
  canonical_block : Nat → Blk
  canonical_hash : Nat → Nat
  total_difficulty : Nat → Nat → Nat
  state_root_hash : Nat → Nat

/-- `HashMap::get` on the `bad_blocks` map (keyed by hash). -/
def hmGet (m : List (Nat × VErr)) (k : Nat) : Option VErr :=
  (m.find? (fun p => p.1 = k)).map (fun p => p.2)

/-- `HashMap::insert`: overwrite the key if present. -/
def hmInsert (m : List (Nat × VErr)) (k : Nat) (v : VErr) :
    List (Nat × VErr) :=
  (k, v) :: m.filter (fun p => ¬ p.1 = k)

/-- `Blockchain::unwind_last_changes`: one `UnwindStateChanges` yield per
block number from `tip` down to `ancestor + 1`. -/
def unwind_last_changes (ancestor tip : Nat) : List ChainEvent :=
  ((List.range' (ancestor + 1) (tip - ancestor)).reverse).map
    ChainEvent.unwindBlock

/-- `Blockchain::execute_block`: run the processor (result discarded by
`let _ =`), then optionally compare the state root, unwinding and
failing with `WrongStateRoot` on mismatch. -/
def execute_block (env : ChainEnv) (x : Blk) (check_state_root : Bool) :
    List ChainEvent × Option VErr :=
  let ev0 := [ChainEvent.executedTxs x.hash]
  if check_state_root then
    let state_root := env.state_root_hash x.hash
    if state_root = x.state_root then (ev0, none)
    else (ev0 ++ [ChainEvent.unwindBlock x.number],
          some (.wrongStateRoot x.state_root state_root))
  else (ev0, none)

/-- `Blockchain::re_execute_canonical_chain`: re-run every canonical
block from `ancestor + 1` to `tip` with `check_state_root = false`. -/
def re_execute_canonical_chain (env : ChainEnv) (ancestor tip : Nat) :
    List ChainEvent :=
  (List.range' (ancestor + 1) (tip - ancestor)).flatMap
    (fun n => (execute_block env (env.canonical_block n) false).1)

/-- The `for x in chain` execution loop of `insert_block`: on the first
failing block, cache the error in `bad_blocks` under the INSERTED block's
hash, unwind the executed prefix and re-execute the canonical chain. -/
def execChain (env : ChainEnv) (hash ancestor ccb : Nat)
    (check_state_root : Bool) (bad : List (Nat × VErr)) :
    List Blk → Nat → List (Nat × VErr) × List ChainEvent × Option VErr
  | [], _ => (bad, [], none)
  | x :: rest, n =>
    let r := execute_block env x check_state_root
    match r.2 with
    | some e =>
      (hmInsert bad hash e,
       r.1 ++ unwind_last_changes ancestor (ancestor + n) ++
         re_execute_canonical_chain env ancestor ccb,
       some e)
    | none =>
      let rr := execChain env hash ancestor ccb check_state_root bad rest (n + 1)
      (rr.1, r.1 ++ rr.2.1, rr.2.2)

/-- `Blockchain::insert_block` (`consensus/blockchain.rs` lines 57-153):
returns the updated `bad_blocks` map, the event trace, and the error, if
any. -/
def insert_block (env : ChainEnv) (bad_blocks : List (Nat × VErr))
    (block : Blk) (check_state_root : Bool) :
    List (Nat × VErr) × List ChainEvent × Option VErr :=
  match env.validate_block_header block with
  | some e => (bad_blocks, [], some e)
  | none =>
  match env.pre_validate_block block with
  | some e => (bad_blocks, [], some e)
  | none =>
  match hmGet bad_blocks block.hash with
  | some e => (bad_blocks, [], some e)
  | none =>
  match env.canonical_ancestor block with
  | .error e => (bad_blocks, [], some e)
  | .ok ancestor =>
    let ccb := env.current_canonical_block
    let ev1 := unwind_last_changes ancestor ccb
    let chain :=
      env.intermediate_chain (block.number - 1) block.parentHash ancestor ++
        [block]
    let r := execChain env block.hash ancestor ccb check_state_root
      bad_blocks chain 0
    match r.2.2 with
    | some e => (r.1, ev1 ++ r.2.1, some e)
    | none =>
      let evIns := [ChainEvent.insertedToDb block.hash]
      let tdCur := env.total_difficulty ccb (env.canonical_hash ccb)
      let tdNew := env.total_difficulty block.number block.hash
      if tdCur < tdNew then
        let evDecan :=
          ((List.range' (ancestor + 1) (ccb - ancestor)).reverse).map
            ChainEvent.decanonize
        let evCan := chain.map (fun x => ChainEvent.canonize x.number x.hash)
        (bad_blocks, ev1 ++ r.2.1 ++ evIns ++ evDecan ++ evCan, none)
      else
        (bad_blocks,
         ev1 ++ r.2.1 ++ evIns ++
           unwind_last_changes ancestor (ancestor + chain.length) ++
           re_execute_canonical_chain env ancestor ccb,
         none)

/-- Environment for the unboundedness counterexample: validations pass,
the canonical ancestor is 0 with an empty intermediate chain, and every
execution fails the state-root check. -/
def c4env : ChainEnv :=
  { validate_block_header := fun _ => none
    pre_validate_block := fun _ => none
    canonical_ancestor := fun _ => .ok 0
    current_canonical_block := 0
    intermediate_chain := fun _ _ _ => []
    canonical_block := fun n => ⟨0, n, 0, 0⟩
    canonical_hash := fun _ => 0
    total_difficulty := fun _ _ => 0
    state_root_hash := fun _ => 1 }

/-- The `i`-th distinct failing block. -/
def c4blk (i : Nat) : Blk := { hash := i, number := 1, parentHash := 0, state_root := 0 }

/-- `bad_blocks` after inserting `n` distinct failing blocks. -/
def c4insertMany : Nat → List (Nat × VErr)
  | 0 => []
  | n + 1 => (insert_block c4env (c4insertMany n) (c4blk n) true).1

end Chain

section ChainProofs

open Chain

theorem c4_hmGet_none {m : List (Nat × VErr)} {k : Nat}
    (h : ∀ p ∈ m, p.1 ≠ k) : hmGet m k = none := by
  rw [hmGet]
  rw [List.find?_eq_none.mpr]
  · rfl
  · intro p hp
    simp [h p hp]

theorem c4insertMany_succ (n : Nat)
    (hlt : ∀ p ∈ c4insertMany n, p.1 < n) :
    c4insertMany (n + 1) =
      (n, VErr.wrongStateRoot 0 1) :: c4insertMany n := by
  rw [c4insertMany, insert_block]
  rw [show c4env.validate_block_header (c4blk n) = none from rfl]
  rw [show c4env.pre_validate_block (c4blk n) = none from rfl]
  rw [show hmGet (c4insertMany n) (c4blk n).hash = none from
    c4_hmGet_none (fun q hq => Nat.ne_of_lt (hlt q hq))]
  simp only [show c4env.canonical_ancestor (c4blk n) = .ok 0 from rfl]
  simp only [c4env, c4blk, execChain, execute_block, hmInsert]
  norm_num
  intro a b hab
  have := hlt (a, b) hab
  omega

theorem c4insertMany_keys_lt : ∀ n, ∀ p ∈ c4insertMany n, p.1 < n := by
  intro n
  induction n with
  | zero => intro p hp; cases hp
  | succ n ih =>
    intro p hp
    rw [c4insertMany_succ n ih] at hp
    rcases List.mem_cons.mp hp with h | h
    · rw [h]; omega
    · have := ih p h
      omega

theorem c4insertMany_length : ∀ n, (c4insertMany n).length = n := by
  intro n
  induction n with
  | zero => rfl
  | succ n ih =>
    rw [c4insertMany_succ n (c4insertMany_keys_lt n), List.length_cons, ih]

/-- C4 counterexample: `bad_blocks` is NOT a bounded LRU.  It is a plain
`HashMap` that `insert_block` only ever inserts into: inserting `n`
distinct failing blocks leaves `n` cached entries, so no bound covers
every reachable size. -/
theorem c4_bad_blocks_unbounded :
    ¬ ∃ B, ∀ n, (c4insertMany n).length ≤ B := by
  rintro ⟨B, hB⟩
  have h := hB (B + 1)
  rw [c4insertMany_length] at h
  omega

theorem execChain_fail_spec (env : ChainEnv) (h a ccb : Nat) (csr : Bool)
    (bad : List (Nat × VErr)) (x : Blk) (post : List Blk) (e : VErr)
    (hx : (execute_block env x csr).2 = some e) :
    ∀ pre n, (∀ y ∈ pre, (execute_block env y csr).2 = none) →
      execChain env h a ccb csr bad (pre ++ x :: post) n =
        (hmInsert bad h e,
         pre.flatMap (fun y => (execute_block env y csr).1) ++
           ((execute_block env x csr).1 ++
             unwind_last_changes a (a + (n + pre.length)) ++
             re_execute_canonical_chain env a ccb),
         some e) := by
  intro pre
  induction pre with
  | nil =>
    intro n _
    simp only [List.nil_append, execChain]
    rw [hx]
    simp [List.append_assoc]
  | cons y ys ih =>
    intro n hpre
    have hy : (execute_block env y csr).2 = none :=
      hpre y (List.mem_cons_self y ys)
    simp only [List.cons_append, execChain]
    rw [hy]
    simp only [List.append_eq]
    rw [ih (n + 1) (fun z hz => hpre z (List.mem_cons_of_mem _ hz))]
    have harith : n + 1 + ys.length = n + (ys.length + 1) := by omega
    simp [List.append_assoc, harith]

/-- C4 (amended): with the header validations passing, (a) a block whose
hash is cached in `bad_blocks` makes `insert_block` return the cached
error with no database effect at all: in particular no block is executed
(the cache lookup does happen only after `validate_block_header` and
`pre_validate_block`); and (b) when the first failing block `x` of the
branch is reached after the successfully executed prefix `pre`,
`insert_block` caches the first offending error under the INSERTED
block's hash in the (unbounded) `bad_blocks` map, unwinds the executed
prefix `pre`, re-executes the old canonical chain, and returns that first
error. -/
theorem c4_insert_block_failure_semantics (env : ChainEnv)
    (bad : List (Nat × VErr)) (block : Blk) (csr : Bool)
    (hv : env.validate_block_header block = none)
    (hpv : env.pre_validate_block block = none) :
    (∀ e, hmGet bad block.hash = some e →
      insert_block env bad block csr = (bad, [], some e)) ∧
    (∀ a, hmGet bad block.hash = none →
      env.canonical_ancestor block = .ok a →
      ∀ pre x post e,
        env.intermediate_chain (block.number - 1) block.parentHash a ++
            [block] = pre ++ x :: post →
        (∀ y ∈ pre, (execute_block env y csr).2 = none) →
        (execute_block env x csr).2 = some e →
        insert_block env bad block csr =
          (hmInsert bad block.hash e,
           unwind_last_changes a env.current_canonical_block ++
             (pre.flatMap (fun y => (execute_block env y csr).1) ++
               ((execute_block env x csr).1 ++
                 unwind_last_changes a (a + pre.length) ++
                 re_execute_canonical_chain env a
                   env.current_canonical_block)),
           some e)) := by
  constructor
  · intro e he
    simp only [insert_block, hv, hpv, he]
  · intro a hnone ha pre x post e hchain hpre hx
    simp only [insert_block, hv, hpv, hnone, ha]
    rw [hchain]
    rw [execChain_fail_spec env block.hash a env.current_canonical_block csr
      bad x post e hx pre 0 hpre]
    simp

/-- Witness for the amended C4 theorem at a concrete input: the
environment and block of the unboundedness counterexample, with one
pre-cached entry exercising part (a) and the empty cache exercising
part (b). -/
theorem c4_insert_block_failure_semantics_witness :
    ((∀ e, hmGet [(7, VErr.other 3)] (c4blk 7).hash = some e →
      insert_block c4env [(7, VErr.other 3)] (c4blk 7) true =
        ([(7, VErr.other 3)], [], some e)) ∧
     (∀ a, hmGet [(7, VErr.other 3)] (c4blk 7).hash = none →
      c4env.canonical_ancestor (c4blk 7) = .ok a →
      ∀ pre x post e,
        c4env.intermediate_chain ((c4blk 7).number - 1) (c4blk 7).parentHash a
            ++ [c4blk 7] = pre ++ x :: post →
        (∀ y ∈ pre, (execute_block c4env y true).2 = none) →
        (execute_block c4env x true).2 = some e →
        insert_block c4env [(7, VErr.other 3)] (c4blk 7) true =
          (hmInsert [(7, VErr.other 3)] (c4blk 7).hash e,
           unwind_last_changes a c4env.current_canonical_block ++
             (pre.flatMap (fun y => (execute_block c4env y true).1) ++
               ((execute_block c4env x true).1 ++
                 unwind_last_changes a (a + pre.length) ++
                 re_execute_canonical_chain c4env a
                   c4env.current_canonical_block)),
           some e))) ∧
    ((∀ e, hmGet [] (c4blk 7).hash = some e →
      insert_block c4env [] (c4blk 7) true = ([], [], some e)) ∧
     (∀ a, hmGet [] (c4blk 7).hash = none →
      c4env.canonical_ancestor (c4blk 7) = .ok a →
      ∀ pre x post e,
        c4env.intermediate_chain ((c4blk 7).number - 1) (c4blk 7).parentHash a
            ++ [c4blk 7] = pre ++ x :: post →
        (∀ y ∈ pre, (execute_block c4env y true).2 = none) →
        (execute_block c4env x true).2 = some e →
        insert_block c4env [] (c4blk 7) true =
          (hmInsert [] (c4blk 7).hash e,
           unwind_last_changes a c4env.current_canonical_block ++
             (pre.flatMap (fun y => (execute_block c4env y true).1) ++
               ((execute_block c4env x true).1 ++
                 unwind_last_changes a (a + pre.length) ++
                 re_execute_canonical_chain c4env a
                   c4env.current_canonical_block)),
           some e))) :=
  ⟨c4_insert_block_failure_semantics c4env [(7, VErr.other 3)] (c4blk 7) true
      rfl rfl,
   c4_insert_block_failure_semantics c4env [] (c4blk 7) true rfl rfl⟩

end ChainProofs

end Martinez
